import Mathlib

/-!
Verification development for the Automate-UX document-patch engine
(`runner/domPatcher.js`, audited 2025-09-07 version) and the asynchronous
job runner (`runner/index.js`).

The JavaScript DOM (jsdom) is shallowly embedded as a tree of nodes with
numeric identities (`nid`), standing for JavaScript object identity.  A
document plus any subtrees detached by mutation form a *forest*; node
references stay valid on detached subtrees, exactly as live DOM references
do in JavaScript.  HTML parsing/serialization is the external Document
Model boundary: operations carry pre-parsed fragments, and results are
returned as trees (serialization is structural).
-/

namespace AutomateUX

/-- A DOM node: an element with an identity, a (lowercased, as the HTML
parser normalizes) tag name, an ordered attribute list and ordered
children, or a text node. -/
inductive DomNode where
  | elem (nid : Nat) (tag : String) (attrs : List (String × String)) (children : List DomNode)
  | text (s : String)

mutual

/-- All element identities occurring in a tree, in document (preorder) order. -/
def nidsOf : DomNode → List Nat
  | .text _ => []
  | .elem i _ _ cs => i :: nidsOfL cs

/-- All element identities occurring in a list of trees. -/
def nidsOfL : List DomNode → List Nat
  | [] => []
  | c :: cs => nidsOf c ++ nidsOfL cs

end

/-- Does the tree contain an element with identity `n`? -/
def hasNid (t : DomNode) (n : Nat) : Bool := (nidsOf t).contains n

mutual

/-- The subtree rooted at the first element with identity `n`, if any. -/
def getSubtree : DomNode → Nat → Option DomNode
  | .text _, _ => none
  | .elem i t a cs, n => if i = n then some (.elem i t a cs) else getSubtreeL cs n

/-- `getSubtree` over a list of trees, first hit wins. -/
def getSubtreeL : List DomNode → Nat → Option DomNode
  | [], _ => none
  | c :: cs, n => match getSubtree c n with
    | some r => some r
    | none => getSubtreeL cs n

end

/-- The subtree rooted at `n` within a forest. -/
def getSubtreeF (f : List DomNode) (n : Nat) : Option DomNode := getSubtreeL f n

/-- Tag and attributes of the element `n`, if present. -/
def getElemInfo (f : List DomNode) (n : Nat) : Option (String × List (String × String)) :=
  match getSubtreeF f n with
  | some (.elem _ t a _) => some (t, a)
  | _ => none

/-- Largest identity in a tree (0 if none): used to seed fresh identities. -/
def maxNid (t : DomNode) : Nat := (nidsOf t).foldl Nat.max 0

mutual

/-- Replace the children of the element `n` by `new`.  Returns the updated
tree together with the list of detached former children (in JavaScript the
old child references stay alive; here they join the forest). -/
def replaceChildrenAt : DomNode → Nat → List DomNode → (DomNode × List DomNode)
  | .text s, _, _ => (.text s, [])
  | .elem i t a cs, n, new =>
    if i = n then (.elem i t a new, cs)
    else
      let r := replaceChildrenAtL cs n new
      (.elem i t a r.1, r.2)

/-- `replaceChildrenAt` mapped over a list of sibling trees. -/
def replaceChildrenAtL : List DomNode → Nat → List DomNode → (List DomNode × List DomNode)
  | [], _, _ => ([], [])
  | c :: cs, n, new =>
    let r := replaceChildrenAt c n new
    let rs := replaceChildrenAtL cs n new
    (r.1 :: rs.1, r.2 ++ rs.2)

end

mutual

/-- Append `frag` after the existing children of element `n`
(`insertAdjacentHTML` with position `beforeend`). -/
def appendChildrenAt : DomNode → Nat → List DomNode → DomNode
  | .text s, _, _ => .text s
  | .elem i t a cs, n, frag =>
    if i = n then .elem i t a (cs ++ frag)
    else .elem i t a (appendChildrenAtL cs n frag)

/-- `appendChildrenAt` mapped over a list of sibling trees. -/
def appendChildrenAtL : List DomNode → Nat → List DomNode → List DomNode
  | [], _, _ => []
  | c :: cs, n, frag => appendChildrenAt c n frag :: appendChildrenAtL cs n frag

end

mutual

/-- Rewrite the attribute list of element `n` with `f`. -/
def updateAttrsAt : DomNode → Nat → (List (String × String) → List (String × String)) → DomNode
  | .text s, _, _ => .text s
  | .elem i t a cs, n, f =>
    if i = n then .elem i t (f a) cs
    else .elem i t a (updateAttrsAtL cs n f)

/-- `updateAttrsAt` mapped over a list of sibling trees. -/
def updateAttrsAtL : List DomNode → Nat → (List (String × String) → List (String × String)) → List DomNode
  | [], _, _ => []
  | c :: cs, n, f => updateAttrsAt c n f :: updateAttrsAtL cs n f

end

mutual

/-- Renumber a fragment with fresh identities starting at `k`: models the
fact that parsing an HTML string allocates fresh node objects. -/
def renumber : DomNode → Nat → (DomNode × Nat)
  | .text s, k => (.text s, k)
  | .elem _ t a cs, k =>
    let r := renumberL cs (k + 1)
    (.elem k t a r.1, r.2)

/-- `renumber` over a list of sibling trees, threading the counter. -/
def renumberL : List DomNode → Nat → (List DomNode × Nat)
  | [], k => ([], k)
  | c :: cs, k =>
    let r := renumber c k
    let rs := renumberL cs r.2
    (r.1 :: rs.1, rs.2)

end

/-- Forest-level child replacement: detached subtrees are appended to the
forest so that live references into them stay meaningful. -/
def replaceChildrenF (f : List DomNode) (n : Nat) (new : List DomNode) : List DomNode :=
  let r := replaceChildrenAtL f n new
  r.1 ++ r.2

/-- Forest-level append. -/
def appendChildrenF (f : List DomNode) (n : Nat) (frag : List DomNode) : List DomNode :=
  appendChildrenAtL f n frag

/-- Forest-level attribute update. -/
def updateAttrsF (f : List DomNode) (n : Nat)
    (g : List (String × String) → List (String × String)) : List DomNode :=
  updateAttrsAtL f n g

/-- `setAttribute`: replace the value of an existing attribute in place, or
append the attribute at the end. -/
def setAttrList (name value : String) : List (String × String) → List (String × String)
  | [] => [(name, value)]
  | (k, v) :: rest =>
    if k = name then (k, value) :: rest else (k, v) :: setAttrList name value rest

/-- Attribute lookup. -/
def attrLookup (attrs : List (String × String)) (name : String) : Option String :=
  match attrs.find? (fun p => p.1 = name) with
  | some p => some p.2
  | none => none

/-- JavaScript regex `\s` on the character range the repo manipulates. -/
def jsWsChar (c : Char) : Bool :=
  c = ' ' || c = '\t' || c = '\n' || c = '\r' || c = '\x0b' || c = '\x0c'

/-- `String(value).split(/\s+/).filter(Boolean)`: whitespace-separated words. -/
def splitWsChars : List Char → List (List Char)
  | [] => []
  | c :: cs =>
    if jsWsChar c then splitWsChars cs
    else
      match splitWsChars cs with
      | [] => [[c]]
      | w :: ws => if jsWsChar (cs.headD ' ') then [c] :: w :: ws else (c :: w) :: ws

/-- Word split on a `String`. -/
def splitWs (s : String) : List String := (splitWsChars s.data).map String.mk

/-- Ordered-set view of a `DOMTokenList`: duplicates removed, first
occurrence kept. -/
def dedupKeepFirst : List String → List String
  | [] => []
  | t :: ts => t :: (dedupKeepFirst ts).filter (fun u => u ≠ t)

/-- `classList.add(...tokens)` followed by the attribute update steps
(serialize the ordered set with single spaces). -/
def classAdd (cur : String) (toks : List String) : String :=
  let base := dedupKeepFirst (splitWs cur)
  let final := toks.foldl (fun acc t => if acc.contains t then acc else acc ++ [t]) base
  String.intercalate " " final

/-- `classList.remove(...tokens)` followed by the attribute update steps. -/
def classRemove (cur : String) (toks : List String) : String :=
  let base := dedupKeepFirst (splitWs cur)
  String.intercalate " " (base.filter (fun t => !toks.contains t))

/-! ## Selector mini-engine

The source delegates selector matching to jsdom's CSS engine, an external
dependency.  Following the spec's design note (§9) we model it by a minimal
matcher over simple selectors (universal, tag, `#id`, `.class`, `[attr]`,
`[attr="value"]`) combined by descendant whitespace; every other string is
an *invalid selector* (`querySelectorAll` throws on it, which callers under
`try` turn into an empty match). -/

/-- One simple selector. -/
inductive SimpleSel where
  | univ
  | tag (t : String)
  | idSel (s : String)
  | clsSel (s : String)
  | attrPresent (n : String)
  | attrValue (n v : String)

/-- Characters allowed in the identifiers of the modeled selector subset. -/
def identChar (c : Char) : Bool :=
  c.isAlpha || c.isDigit || c = '-' || c = '_'

/-- Is the string a nonempty identifier? -/
def isIdent (cs : List Char) : Bool :=
  !cs.isEmpty && cs.all identChar

/-- Parse one simple selector; `none` models a selector-syntax error. -/
def parseSimple (cs : List Char) : Option SimpleSel :=
  match cs with
  | [] => none
  | '*' :: [] => some .univ
  | '#' :: rest => if isIdent rest then some (.idSel (String.mk rest)) else none
  | '.' :: rest => if isIdent rest then some (.clsSel (String.mk rest)) else none
  | '[' :: rest =>
    match rest.reverse with
    | ']' :: revInner =>
      let inner := revInner.reverse
      if isIdent inner then some (.attrPresent (String.mk (inner.map Char.toLower)))
      else
        match inner.splitOn '=' with
        | [n, v] =>
          let v := match v with
            | '"' :: tl =>
              match tl.reverse with
              | '"' :: revMid => some (String.mk revMid.reverse)
              | _ => none
            | _ => if isIdent v then some (String.mk v) else none
          match v with
          | some vs =>
            if isIdent n then some (.attrValue (String.mk (n.map Char.toLower)) vs) else none
          | none => none
        | _ => none
    | _ => none
  | _ =>
    if isIdent cs && (cs.headD 'a').isAlpha then
      some (.tag (String.mk (cs.map Char.toLower)))
    else none

/-- Parse a full selector: whitespace-separated simple selectors combined
by the descendant combinator.  `none` = the engine throws. -/
def parseSelector (s : String) : Option (List SimpleSel) :=
  let parts := splitWsChars s.data
  if parts.isEmpty then none
  else (parts.mapM parseSimple)

/-- Does the element `(tag, attrs)` match one simple selector? -/
def matchesSimple (tag : String) (attrs : List (String × String)) : SimpleSel → Bool
  | .univ => true
  | .tag t => tag = t
  | .idSel s => attrLookup attrs "id" = some s
  | .clsSel s => (splitWs ((attrLookup attrs "class").getD "")).contains s
  | .attrPresent n => (attrLookup attrs n).isSome
  | .attrValue n v => attrLookup attrs n = some v

/-- Match a reversed selector tail against a reversed ancestor chain,
allowing gaps (descendant combinator). -/
def gapMatch : List SimpleSel → List (String × List (String × String)) → Bool
  | [], _ => true
  | _ :: _, [] => false
  | s :: ss, e :: es =>
    if matchesSimple e.1 e.2 s then gapMatch ss es || gapMatch (s :: ss) es
    else gapMatch (s :: ss) es

/-- Does the element whose chain (element itself first, then its ancestors
up to the root) is `chainRev` match the selector `selsRev` (given in
reverse)? The last simple selector is anchored at the element itself. -/
def anchoredMatch (selsRev : List SimpleSel)
    (chainRev : List (String × List (String × String))) : Bool :=
  match selsRev, chainRev with
  | s :: ss, e :: es => matchesSimple e.1 e.2 s && gapMatch ss es
  | _, _ => false

mutual

/-- Collect, in document order, identities of elements matching `selsRev`
(the parsed selector, reversed).  `inside = true` restricts hits to proper
descendants of the scope element identified by `scope`; ancestors above
the scope still participate in descendant matching, as in the DOM. -/
def qsaNode (selsRev : List SimpleSel) (scope : Option Nat) (inside : Bool)
    (chainRev : List (String × List (String × String))) : DomNode → List Nat
  | .text _ => []
  | .elem i t a cs =>
    let chain := (t, a) :: chainRev
    let here := if (inside || scope.isNone) && anchoredMatch selsRev chain then [i] else []
    here ++ qsaNodeL selsRev scope (inside || scope = some i) chain cs

/-- `qsaNode` over sibling lists. -/
def qsaNodeL (selsRev : List SimpleSel) (scope : Option Nat) (inside : Bool)
    (chainRev : List (String × List (String × String))) : List DomNode → List Nat
  | [] => []
  | c :: cs => qsaNode selsRev scope inside chainRev c ++ qsaNodeL selsRev scope inside chainRev cs

end

/-- `document.querySelectorAll(sel)`: all elements of the document tree
(including the root element).  `none` = the engine throws. -/
def docQsa (doc : DomNode) (sel : String) : Option (List Nat) :=
  match parseSelector sel with
  | none => none
  | some ss => some (qsaNode ss.reverse none true [] doc)

/-- `el.querySelectorAll(sel)` for the element `scope` living in `forest`:
proper descendants of `scope` matching `sel`.  `none` = throw. -/
def elemQsa (forest : List DomNode) (scope : Nat) (sel : String) : Option (List Nat) :=
  match parseSelector sel with
  | none => none
  | some ss =>
    match forest.find? (fun t => hasNid t scope) with
    | some t => some (qsaNode ss.reverse (some scope) false [] t)
    | none => some []

/-- `anyMatch` (domPatcher.js line 37): a query wrapped in `try … catch`
that degrades a selector error to an empty match. -/
def anyMatch (forest : List DomNode) (scope : Nat) (sel : String) : List Nat :=
  (elemQsa forest scope sel).getD []

/-! ## Sanitizer (domPatcher.js lines 46–70)

`sanitizeHtmlFragment` parses the fragment into a `<template>`, removes
dangerous elements wholesale, strips `on*` attributes and
whitespace-tolerant `javascript:` URLs, and re-serializes.  We model it on
the parsed fragment forest (parse/serialize being the structural Document
Model boundary). -/

/-- Tags removed wholesale: the selector
`script, iframe, object, embed, link[rel="stylesheet"], meta`.  The `rel`
value is compared ASCII case-insensitively (HTML legacy attribute). -/
def dangerousElem (tag : String) (attrs : List (String × String)) : Bool :=
  tag = "script" || tag = "iframe" || tag = "object" || tag = "embed" || tag = "meta" ||
    (tag = "link" &&
      String.mk (((attrLookup attrs "rel").getD "").data.map Char.toLower) = "stylesheet")

mutual

/-- Remove dangerous elements (with their entire subtrees) everywhere. -/
def dropDangerous : DomNode → List DomNode
  | .text s => [.text s]
  | .elem i t a cs =>
    if dangerousElem t a then [] else [.elem i t a (dropDangerousL cs)]

/-- `dropDangerous` over sibling lists. -/
def dropDangerousL : List DomNode → List DomNode
  | [] => []
  | c :: cs => dropDangerous c ++ dropDangerousL cs

end

/-- `/^\s*javascript:/i`: leading-whitespace-tolerant `javascript:` test
used by the sanitizer on `href`/`src` values. -/
def wsJsUri (v : String) : Bool :=
  "javascript:".data.isPrefixOf ((v.data.dropWhile (fun c => jsWsChar c)).map Char.toLower)

/-- Keep an attribute iff its lowercased name does not start with `on` and,
for `href`/`src`, its value is not a (whitespace-tolerant) `javascript:`
URI. -/
def keepAttr (p : String × String) : Bool :=
  let name := String.mk (p.1.data.map Char.toLower)
  if "on".data.isPrefixOf name.data then false
  else if (name = "href" || name = "src") && wsJsUri p.2 then false
  else true

mutual

/-- Strip event-handler attributes and `javascript:` URLs on every element. -/
def stripAttrs : DomNode → DomNode
  | .text s => .text s
  | .elem i t a cs => .elem i t (a.filter keepAttr) (stripAttrsL cs)

/-- `stripAttrs` over sibling lists. -/
def stripAttrsL : List DomNode → List DomNode
  | [] => []
  | c :: cs => stripAttrs c :: stripAttrsL cs

end

/-- `sanitizeHtmlFragment` on the parsed fragment: remove dangerous
elements, then strip bad attributes. -/
def sanitizeHtmlFragment (frag : List DomNode) : List DomNode :=
  stripAttrsL (dropDangerousL frag)

/-! ## CSS upsert (domPatcher.js lines 73–100)

`upsertCssRule` builds the regex
`(^|\})\s*ESC(sel)\s*\{([\s\S]*?)\}` (multiline) and either appends a new
block or merges declarations into the first matching block.  Note the
selector-escaping step in the source is inert for ordinary selectors: its
regex `[.*+?^${}()|[\\]\\\\]` closes the character class at the first
escaped backslash, so it only rewrites a metacharacter immediately
followed by the three characters `\\]`.  We therefore model the compiled
pattern by *literal* matching of the trimmed selector, which is exact for
every selector free of regex metacharacters (all selectors used in the
theorems below are of that form, and the selector is trimmed, hence starts
with a non-whitespace character, so the greedy `\s*` needs no
backtracking). -/

/-- Number of consecutive JS-whitespace characters of `txt` from index `j`. -/
def skipWsFrom (txt : List Char) (j : Nat) : Nat :=
  j + ((txt.drop j).takeWhile (fun c => jsWsChar c)).length

/-- Does the multiline anchor `^` match at index `i`? -/
def lineStartAt (txt : List Char) (i : Nat) : Bool :=
  i = 0 || txt.get? (i - 1) = some '\n' || txt.get? (i - 1) = some '\r'

/-- Index of the first occurrence of `c` in `cs`. -/
def findCharIdx (cs : List Char) (c : Char) : Option Nat :=
  match cs with
  | [] => none
  | d :: ds => if d = c then some 0 else (findCharIdx ds c).map (· + 1)

/-- Try the body of the pattern starting at `j` with boundary capture `g1`:
`\s* sel \s* \{ ([\s\S]*?) \}`.  Returns `(end index, g1, body)`. -/
def matchRestAt (sel txt : List Char) (j : Nat) (g1 : List Char) :
    Option (Nat × List Char × List Char) :=
  let j2 := skipWsFrom txt j
  if sel.isPrefixOf (txt.drop j2) then
    let j3 := skipWsFrom txt (j2 + sel.length)
    if txt.get? j3 = some '\x7b' then
      match findCharIdx (txt.drop (j3 + 1)) '\x7d' with
      | some b => some (j3 + 1 + b + 1, g1, (txt.drop (j3 + 1)).take b)
      | none => none
    else none
  else none

/-- Try a full pattern match at index `i`; the alternation `(^|\})` tries
the multiline anchor first, then a literal closing brace. -/
def matchPatternAt (sel txt : List Char) (i : Nat) :
    Option (Nat × List Char × List Char) :=
  match (if lineStartAt txt i then matchRestAt sel txt i [] else none) with
  | some r => some r
  | none =>
    if txt.get? i = some '\x7d' then matchRestAt sel txt (i + 1) ['\x7d'] else none

/-- Scan for the leftmost match from index `i`; `fuel` counts the
positions still to try (`exec` tries every index up to the text length). -/
def execPatternAux (sel txt : List Char) (i : Nat) :
    Nat → Option (Nat × Nat × List Char × List Char)
  | 0 => none
  | fuel + 1 =>
    match matchPatternAt sel txt i with
    | some (e, g1, body) => some (i, e - i, g1, body)
    | none => execPatternAux sel txt (i + 1) fuel

/-- `RegExp.exec`: leftmost match.  Returns `(index, length, g1, body)`. -/
def execPattern (sel txt : List Char) (i : Nat) :
    Option (Nat × Nat × List Char × List Char) :=
  execPatternAux sel txt i (txt.length + 1 - i)

/-- JavaScript `String.prototype.trim` on our character range. -/
def jsTrim (cs : List Char) : List Char :=
  ((cs.dropWhile (fun c => jsWsChar c)).reverse.dropWhile (fun c => jsWsChar c)).reverse

/-- `String.prototype.split` on a single separator character:
`"a;b".split(';') = ["a","b"]`, `"".split(';') = [""]`. -/
def splitOnChar (sep : Char) : List Char → List (List Char)
  | [] => [[]]
  | c :: cs =>
    if c = sep then [] :: splitOnChar sep cs
    else
      match splitOnChar sep cs with
      | [] => [[c]]
      | p :: ps => (c :: p) :: ps

/-- Insertion-order map update: last value wins, original position kept
(JS object property assignment). -/
def updDecl : List (String × String) → String → String → List (String × String)
  | [], k, v => [(k, v)]
  | (k0, v0) :: rest, k, v =>
    if k0 = k then (k0, v) :: rest else (k0, v0) :: updDecl rest k v

/-- One pass of the declaration loop: split on `;`, split each declaration
on `:` (first two fields only), skip declarations with an empty pre-trim
property or no colon, assign into the map. -/
def declsFold (init : List (String × String)) (body : List Char) : List (String × String) :=
  (splitOnChar ';' body).foldl
    (fun acc piece =>
      match splitOnChar ':' piece with
      | k :: v :: _ =>
        if k.isEmpty then acc
        else updDecl acc (String.mk (jsTrim k)) (String.mk (jsTrim v))
      | _ => acc)
    init

/-- Parse a declaration list into an insertion-ordered map. -/
def parseDecls (body : List Char) : List (String × String) :=
  declsFold [] body

/-- Merge incoming declarations over existing ones. -/
def mergeDecls (existing : List (String × String)) (incoming : List Char) :
    List (String × String) :=
  declsFold existing incoming

/-- Serialize a declaration map: `k: v` joined by `; `. -/
def serializeDecls (m : List (String × String)) : String :=
  String.intercalate "; " (m.map (fun p => p.1 ++ ": " ++ p.2))

/-- `upsertCssRule(cssText, selector, styleRules)` (domPatcher.js 73–100).
The source quotes the selector with a broken escape (line 79: the
character class of the escape regex closes at the first escaped
backslash, so for backslash-free selectors the replacement never fires)
and then embeds it in `new RegExp`; this definition models the compiled
pattern as the literal matcher `execPattern`.  That is exact precisely
for selectors free of regex metacharacters (`selRegexLiteral` below): a
metacharacter selector reaches the constructor raw, which throws an
uncaught `SyntaxError` when the result is not a valid pattern (e.g. `*`
or `a(`) and matches with regex rather than literal semantics otherwise —
an error path outside this total definition, carved out by the proviso of
the C5 theorem. -/
def upsertCssRule (cssText selector styleRules : String) : String :=
  let sel := jsTrim selector.data
  let rules := jsTrim styleRules.data
  if sel.isEmpty || rules.isEmpty then cssText
  else
    match execPattern sel cssText.data 0 with
    | none =>
      cssText ++ "\n" ++ String.mk sel ++ " \x7b " ++ String.mk rules ++ " \x7d"
    | some (i, len, g1, body) =>
      let existing := jsTrim body
      let merged := serializeDecls (mergeDecls (parseDecls existing) rules)
      let replacement :=
        String.mk g1 ++ " " ++ String.mk sel ++ " \x7b " ++ merged ++ " \x7d"
      String.mk (cssText.data.take i) ++ replacement ++
        String.mk (cssText.data.drop (i + len))

/-- The regex metacharacters the inert escape of line 79 was meant to
quote: `. * + ? ^ $ \x7b \x7d ( ) | [ ] \`. -/
def regexMetaChar (c : Char) : Bool :=
  c = '.' || c = '*' || c = '+' || c = '?' || c = '^' || c = '$' ||
  c = '\x7b' || c = '\x7d' || c = '(' || c = ')' || c = '|' ||
  c = '[' || c = ']' || c = '\\'

/-- A string every character of which is regex-literal: embedded in the
fixed pattern wrapper of `upsertCssRule` it yields a valid `RegExp` that
cannot throw and whose semantics are the literal matching modeled by
`execPattern`. -/
def selRegexLiteral (s : String) : Bool :=
  s.data.all (fun c => !regexMetaChar c)

/-! ## Patch engine (domPatcher.js `applyOps`, lines 102–247) -/

/-- One operation object.  Fields the code reads; `none` covers both an
absent field and a field of the wrong type wherever the code type-checks
it (`typeof op.text === 'string'`), and fragments arrive pre-parsed.  The
JS falsy check on strings is the `= ""` test. -/
structure Op where
  op : String
  selector : String
  text : Option String
  html : Option (List DomNode)
  attr : Option String
  value : Option String
  cssSelector : Option String
  styleRules : Option String

/-- An operation with every optional field absent. -/
def baseOp : Op := ⟨"", "", none, none, none, none, none, none⟩

/-- One entry of the `applied` observability log. -/
structure Applied where
  op : String
  selector : String
  attr : Option String
  value : Option String

/-- The `applyOps` request (html arrives parsed as `doc`). -/
structure PatchRequest where
  doc : DomNode
  css : String
  ops : List Op
  root : Option String
  protectedSelectors : List String
  maxOps : Int

/-- The `applyOps` result (html returned as a tree: serialization is
structural). -/
structure PatchResult where
  doc : DomNode
  css : String
  changed : Nat
  applied : List Applied

/-- Engine state while processing operations.  `forest` is the document
tree followed by subtrees detached by earlier mutations (live references);
`events` is proof-only instrumentation recording, for every counted
mutation, the identity of the candidate element it was applied to — it has
no counterpart in the JS state and never feeds back into the engine. -/
structure EngineState where
  forest : List DomNode
  css : String
  changed : Nat
  applied : List Applied
  seen : List String
  nextId : Nat
  events : List (Nat × String)

/-- `DEFAULT_PROTECTED` (line 113).  The second entry is not valid CSS, so
querying it throws and it is skipped by the `catch`. -/
def DEFAULT_PROTECTED : List String :=
  ["header", "footer role=\"contentinfo\"", "script", "link", "meta", "style"]

/-- Build the protected node set: defaults first, then caller-supplied
selectors, each queried over the whole document under `try … catch`. -/
def protectedNodeIds (doc : DomNode) (sels : List String) : List Nat :=
  (DEFAULT_PROTECTED ++ sels).foldl
    (fun acc sel =>
      match docQsa doc sel with
      | some ns => acc ++ ns.filter (fun n => !acc.contains n)
      | none => acc)
    []

/-- `inProtected` (lines 121–127): the element equals or descends from some
protected node (the `contains` ancestor walk). -/
def inProtected (forest : List DomNode) (protIds : List Nat) (el : Nat) : Bool :=
  protIds.any (fun p =>
    match getSubtreeF forest p with
    | some t => hasNid t el
    | none => false)

/-- `!budgetLeft()` (line 133): the budget is exhausted iff `maxOps` is
positive and already consumed (`maxOps <= 0` means unbounded). -/
def budgetExhausted (maxOps : Int) (changed : Nat) : Bool :=
  if 0 < maxOps then decide (maxOps ≤ (changed : Int)) else false

/-- Identity of the root element of a tree (0 for a bare text node). -/
def rootNid : DomNode → Nat
  | .elem i _ _ _ => i
  | .text _ => 0

/-- `doc.body`: the first `body` element (jsdom always synthesizes one;
we fall back to the document root). -/
def bodyNid (doc : DomNode) : Nat :=
  (((docQsa doc "body").getD []).headD (rootNid doc))

/-- Resolve scope roots (line 107): a truthy `root` selector is queried
over the document *without* `try`, so an invalid selector throws. -/
def resolveRoots (doc : DomNode) (root : Option String) : Except String (List Nat) :=
  match root with
  | none => .ok []
  | some r =>
    if r = "" then .ok []
    else
      match docQsa doc r with
      | some ns => .ok ns
      | none => .error "SyntaxError: root selector failed to parse"

/-- The dedup key of line 147:
`` `${selector}@@${el.tagName}#${el.id}.${el.className}` ``. -/
def seenKey (forest : List DomNode) (selector : String) (el : Nat) : String :=
  match getElemInfo forest el with
  | some (t, a) =>
    selector ++ "@@" ++ String.mk (t.data.map Char.toUpper) ++ "#" ++
      ((attrLookup a "id").getD "") ++ "." ++ ((attrLookup a "class").getD "")
  | none => selector ++ "@@#."

/-- Candidate resolution (lines 142–154): query each scope root, dedup via
the `seen` key set, keep document order. -/
def collectCandidates (forest : List DomNode) (safeRoots : List Nat)
    (selector : String) (seen : List String) : List Nat × List String :=
  safeRoots.foldl
    (fun acc r =>
      (anyMatch forest r selector).foldl
        (fun acc2 el =>
          let key := seenKey forest selector el
          if acc2.2.contains key then acc2 else (acc2.1 ++ [el], key :: acc2.2))
        acc)
    ([], seen)

/-- `/^javascript:/i` (line 196): anchored at index 0, no whitespace
tolerance — unlike the sanitizer's pattern. -/
def jsUriAnchored (v : String) : Bool :=
  "javascript:".data.isPrefixOf (v.data.map Char.toLower)

/-- The `set_attr` rejection guard of line 196:
`/^javascript:/i.test(value) && (name === 'href' || name === 'src')` where
`name` is the lowercased attribute name. -/
def setAttrBlocked (name value : String) : Bool :=
  jsUriAnchored value && (name = "href" || name = "src")

/-- Model of the DOM attribute-name validation performed by
`setAttribute`, which throws `InvalidCharacterError` on a name outside the
XML `Name` production (ASCII fragment). -/
def validAttrName (s : String) : Bool :=
  match s.data with
  | [] => false
  | c :: rest =>
    (c.isAlpha || c = '_' || c = ':') &&
      rest.all (fun d => d.isAlpha || d.isDigit || d = '-' || d = '_' || d = ':' || d = '.')

/-- Process the candidate list of one operation (lines 157–243).  Inside
the `switch`, `break` moves to the next candidate; the budget check at the
head of the loop leaves the loop. -/
def runCandidates (protIds safeRoots : List Nat) (maxOps : Int) (op : Op) :
    List Nat → EngineState → Except String EngineState
  | [], st => .ok st
  | el :: rest, st =>
    if budgetExhausted maxOps st.changed then .ok st
    else if inProtected st.forest protIds el then runCandidates protIds safeRoots maxOps op rest st
    else if op.op = "replace_text" then
      match op.text with
      | some s =>
        runCandidates protIds safeRoots maxOps op rest
          { st with
            forest := replaceChildrenF st.forest el (if s = "" then [] else [.text s])
            changed := st.changed + 1
            applied := st.applied ++ [⟨op.op, op.selector, none, none⟩]
            events := st.events ++ [(el, op.op)] }
      | none => runCandidates protIds safeRoots maxOps op rest st
    else if op.op = "append_html" then
      match op.html with
      | some frag =>
        let safe := sanitizeHtmlFragment frag
        let r := renumberL safe st.nextId
        runCandidates protIds safeRoots maxOps op rest
          { st with
            forest := appendChildrenF st.forest el r.1
            nextId := r.2
            changed := st.changed + 1
            applied := st.applied ++ [⟨op.op, op.selector, none, none⟩]
            events := st.events ++ [(el, op.op)] }
      | none => runCandidates protIds safeRoots maxOps op rest st
    else if op.op = "replace_html" then
      if safeRoots.contains el then runCandidates protIds safeRoots maxOps op rest st
      else
        match op.html with
        | some frag =>
          let safe := sanitizeHtmlFragment frag
          let r := renumberL safe st.nextId
          runCandidates protIds safeRoots maxOps op rest
            { st with
              forest := replaceChildrenF st.forest el r.1
              nextId := r.2
              changed := st.changed + 1
              applied := st.applied ++ [⟨op.op, op.selector, none, none⟩]
              events := st.events ++ [(el, op.op)] }
        | none => runCandidates protIds safeRoots maxOps op rest st
    else if op.op = "set_attr" then
      match op.attr with
      | some a =>
        if a = "" then runCandidates protIds safeRoots maxOps op rest st
        else
          let name := String.mk (a.data.map Char.toLower)
          if "on".data.isPrefixOf name.data then
            runCandidates protIds safeRoots maxOps op rest st
          else
            let value := op.value.getD ""
            if setAttrBlocked name value then
              runCandidates protIds safeRoots maxOps op rest st
            else if validAttrName a then
              runCandidates protIds safeRoots maxOps op rest
                { st with
                  forest := updateAttrsF st.forest el (setAttrList name value)
                  changed := st.changed + 1
                  applied := st.applied ++ [⟨op.op, op.selector, some a, none⟩]
                  events := st.events ++ [(el, op.op)] }
            else .error "InvalidCharacterError"
      | none => runCandidates protIds safeRoots maxOps op rest st
    else if op.op = "add_class" then
      match op.value with
      | some v =>
        if v = "" then runCandidates protIds safeRoots maxOps op rest st
        else
          let list := splitWs v
          if list.isEmpty then runCandidates protIds safeRoots maxOps op rest st
          else
            runCandidates protIds safeRoots maxOps op rest
              { st with
                forest := updateAttrsF st.forest el
                  (fun a => setAttrList "class" (classAdd ((attrLookup a "class").getD "") list) a)
                changed := st.changed + 1
                applied := st.applied ++ [⟨op.op, op.selector, none, some (String.intercalate " " list)⟩]
                events := st.events ++ [(el, op.op)] }
      | none => runCandidates protIds safeRoots maxOps op rest st
    else if op.op = "remove_class" then
      match op.value with
      | some v =>
        if v = "" then runCandidates protIds safeRoots maxOps op rest st
        else
          let list := splitWs v
          if list.isEmpty then runCandidates protIds safeRoots maxOps op rest st
          else
            runCandidates protIds safeRoots maxOps op rest
              { st with
                forest := updateAttrsF st.forest el
                  (fun a => setAttrList "class" (classRemove ((attrLookup a "class").getD "") list) a)
                changed := st.changed + 1
                applied := st.applied ++ [⟨op.op, op.selector, none, some (String.intercalate " " list)⟩]
                events := st.events ++ [(el, op.op)] }
      | none => runCandidates protIds safeRoots maxOps op rest st
    else if op.op = "upsert_style" then
      match op.cssSelector, op.styleRules with
      | some c, some s =>
        if c = "" || s = "" then runCandidates protIds safeRoots maxOps op rest st
        else
          runCandidates protIds safeRoots maxOps op rest
            { st with
              css := upsertCssRule st.css c s
              changed := st.changed + 1
              applied := st.applied ++ [⟨op.op, c, none, none⟩]
              events := st.events ++ [(el, op.op)] }
      | _, _ => runCandidates protIds safeRoots maxOps op rest st
    else
      runCandidates protIds safeRoots maxOps op rest st

/-- The operation loop (lines 135–244). -/
def runOps (protIds safeRoots : List Nat) (maxOps : Int) :
    List Op → EngineState → Except String EngineState
  | [], st => .ok st
  | op :: rest, st =>
    if budgetExhausted maxOps st.changed then .ok st
    else if op.selector = "" || op.op = "" then runOps protIds safeRoots maxOps rest st
    else
      let c := collectCandidates st.forest safeRoots op.selector st.seen
      let st1 := { st with seen := c.2 }
      if c.1.isEmpty then runOps protIds safeRoots maxOps rest st1
      else
        match runCandidates protIds safeRoots maxOps op c.1 st1 with
        | .ok st2 => runOps protIds safeRoots maxOps rest st2
        | .error e => .error e

/-- `applyOps`, exposing the full engine state (forest with detached
subtrees, ghost events).  Roots are resolved before the protected set is
built, as in the source. -/
def applyOpsFull (req : PatchRequest) : Except String EngineState :=
  match resolveRoots req.doc req.root with
  | .error e => .error e
  | .ok roots =>
    let safeRoots := if roots.isEmpty then [bodyNid req.doc] else roots
    let protIds := protectedNodeIds req.doc req.protectedSelectors
    runOps protIds safeRoots req.maxOps req.ops
      ⟨[req.doc], req.css, 0, [], [], maxNid req.doc + 1, []⟩

/-- `applyOps` (lines 102–247): the API result
`{html: dom.serialize(), css, changed, applied}` with html kept as a tree. -/
def applyOps (req : PatchRequest) : Except String PatchResult :=
  match applyOpsFull req with
  | .error e => .error e
  | .ok st => .ok ⟨st.forest.headD req.doc, st.css, st.changed, st.applied⟩

/-! ## Job runner (runner/index.js)

`runJob` (lines 271–304) drives the model fallback chain and persists the
job record to Redis after every transition; `workerLoop` (308–330) pops an
id, loads the record and calls `runJob`, never touching the record again.
The OpenAI call is external network I/O: we model one *call* of the chain
by its observable outcome — the validated file set on success, or the
failure reason (timeout, HTTP error, invalid JSON, failed validation) —
paired with the model name it was issued against.  Persistence is modeled
as the ordered list of snapshots written. -/

/-- Job status values. -/
inductive JobStatus where
  | queued
  | running
  | done
  | error
deriving DecidableEq, Repr

/-- The generated file set, as validated by `validateAiOutput`: the three
required entries (already sanitized of external scripts/remote CSS). -/
structure SiteFiles where
  indexHtml : String
  styleCss : String
  appJs : String
deriving DecidableEq, Repr

/-- A job record (timestamps omitted — wall-clock time is outside the
embedding). -/
structure Job where
  id : String
  status : JobStatus
  prompt : String
  preset : String
  logs : List String
  result : Option SiteFiles
  error : Option String
deriving DecidableEq, Repr

/-- Outcome of one `callOpenAI` invocation: `{ok:true, files}` or
`{ok:false, error}`. -/
inductive OracleOutcome where
  | ok (files : SiteFiles)
  | fail (reason : String)
deriving DecidableEq, Repr

/-- The job created by `POST /jobs-create` (index.js 342–364). -/
def mkJob (id prompt preset : String) : Job :=
  ⟨id, .queued, prompt, preset, [], none, none⟩

/-- The fallback loop of `runJob` (lines 284–298): first success wins; a
failure appends one log line naming the backend and persists.  Returns the
snapshots written inside the loop.  The input chain pairs each configured
model with the outcome its call would produce. -/
def runChain (job : Job) : List (String × OracleOutcome) → List Job
  | [] =>
    [{ job with
        status := .error
        error := some (match job.logs.getLast? with
          | some l => if l = "" then "AI failed" else l
          | none => "AI failed") }]
  | (_, .ok files) :: _ =>
    [{ job with status := .done, result := some files, error := none }]
  | (model, .fail reason) :: rest =>
    let job1 := { job with logs := job.logs ++ ["Model " ++ model ++ " failed: " ++ reason] }
    job1 :: runChain job1 rest

/-- `runJob` (lines 271–304): set `running`, persist, then walk the chain.
Returns every snapshot persisted, in order. -/
def runJob (job : Job) (chain : List (String × OracleOutcome)) : List Job :=
  let running := { job with status := .running }
  running :: runChain running chain

/-! ## Predicates and concrete inputs used by the theorems -/

mutual

/-- No dangerous element anywhere in the tree. -/
def noDanger : DomNode → Bool
  | .text _ => true
  | .elem _ t a cs => !dangerousElem t a && noDangerL cs

/-- `noDanger` over sibling lists. -/
def noDangerL : List DomNode → Bool
  | [] => true
  | c :: cs => noDanger c && noDangerL cs

end

mutual

/-- A fully clean tree: no dangerous element, and every attribute passes
`keepAttr` (no `on*` name, no whitespace-tolerant `javascript:` href/src). -/
def cleanNode : DomNode → Bool
  | .text _ => true
  | .elem _ t a cs => !dangerousElem t a && a.all keepAttr && cleanNodeL cs

/-- `cleanNode` over sibling lists. -/
def cleanNodeL : List DomNode → Bool
  | [] => true
  | c :: cs => cleanNode c && cleanNodeL cs

end

/-- Element identities of a parsed document are distinct (JavaScript object
identities always are; concrete documents in this file satisfy it by
construction). -/
def WFDoc (doc : DomNode) : Prop := (nidsOf doc).Nodup

/-- Is `el` the protected node `p` or one of its descendants, measured on
the request's original document? -/
def inProtectedOf (doc : DomNode) (p el : Nat) : Bool :=
  match getSubtree doc p with
  | some t => hasNid t el
  | none => false

/-- Concrete document: `<html><head/><body><div id="x"><script>…</script></div></body></html>`. -/
def exDocScript : DomNode :=
  .elem 0 "html" []
    [.elem 1 "head" [] [],
     .elem 2 "body" []
       [.elem 3 "div" [("id", "x")]
         [.elem 4 "script" [] [.text "evil()"]]]]

/-- Concrete document with a `nav` and a `[data-protect]` division in the
body. -/
def exDocNav : DomNode :=
  .elem 0 "html" []
    [.elem 1 "head" [] [],
     .elem 2 "body" []
       [.elem 3 "nav" [] [],
        .elem 4 "div" [("data-protect", "")] []]]

/-- C1 counterexample request: `replace_text` on the unprotected parent of
a (default-)protected `script`. -/
def exReqDestroyScript : PatchRequest :=
  ⟨exDocScript, "",
   [{ baseOp with op := "replace_text", selector := "#x", text := some "New" }],
   none, [], 200⟩

/-- C6 counterexample request: an `upsert_style` operation shaped as the
spec's UpsertStyle record — `cssSelector`/`styleRules` only, no
`selector`. -/
def exReqUpsertNoSelector : PatchRequest :=
  ⟨exDocNav, "p \x7b color: red \x7d",
   [{ baseOp with op := "upsert_style", cssSelector := some ".a", styleRules := some "color: blue" }],
   none, [], 200⟩

/-- An `upsert_style` operation that does carry a selector matching one
unprotected element. -/
def exReqUpsertWithSelector : PatchRequest :=
  ⟨exDocNav, "",
   [{ baseOp with op := "upsert_style", selector := "nav", cssSelector := some ".a", styleRules := some "color: blue" }],
   none, [], 200⟩

/-- C5 counterexample request: `set_attr` with an attribute name no DOM
implementation accepts (contains a space). -/
def exReqBadAttr : PatchRequest :=
  ⟨exDocScript, "",
   [{ baseOp with op := "set_attr", selector := "div", attr := some "a b", value := some "x" }],
   none, [], 200⟩

/-- C10 request: `set_attr href` with a `javascript:` URI hidden behind a
leading space. -/
def exReqWsJsHref : PatchRequest :=
  ⟨exDocScript, "",
   [{ baseOp with op := "set_attr", selector := "#x", attr := some "href", value := some " javascript:alert(1)" }],
   none, [], 200⟩

/-! # Theorems -/

/-! ## C10 — the `set_attr` URI guard is anchored, with no whitespace
tolerance -/

theorem jsWsChar_toLower_ne_j {c : Char} (h : jsWsChar c = true) : c.toLower ≠ 'j' := by
  simp only [jsWsChar, Bool.or_eq_true, decide_eq_true_eq] at h
  rcases h with ((((h | h) | h) | h) | h) | h <;> subst h <;> decide

/-- C10: for `set_attr` on `href`/`src`, the `javascript:` guard is
anchored at index 0 with no whitespace tolerance: any value starting with
a whitespace character is never blocked (and in a concrete run the value
` javascript:alert(1)` is actually set on the element), while a value
beginning exactly with `javascript:` (case-insensitively, here modulo
ASCII lowering) is blocked for `href`/`src`. -/
theorem set_attr_guard_anchored_no_ws_tolerance :
    (∀ (name : String) (c : Char) (v : List Char),
        jsWsChar c = true → setAttrBlocked name (String.mk (c :: v)) = false)
    ∧ (∀ (v name : String), name = "href" ∨ name = "src" →
        setAttrBlocked name ("javascript:" ++ v) = true)
    ∧ (applyOps exReqWsJsHref).toOption.map
        (fun r => (r.changed, (getElemInfo [r.doc] 3).map (fun p => attrLookup p.2 "href"))) =
        some (1, some (some " javascript:alert(1)")) := by
  refine ⟨?_, ?_, by rfl⟩
  · intro name c v h
    have hc := jsWsChar_toLower_ne_j h
    simp only [setAttrBlocked, jsUriAnchored, Bool.and_eq_false_iff]
    left
    show List.isPrefixOf ('j' :: "avascript:".data) (c.toLower :: v.map Char.toLower) = false
    simp [List.isPrefixOf, Ne.symm hc]
  · intro v name h
    have hpre : jsUriAnchored ("javascript:" ++ v) = true := by
      simp only [jsUriAnchored, String.data_append, List.map_append]
      have hfix : "javascript:".data.map Char.toLower = "javascript:".data := by decide
      rw [hfix]
      simp [List.isPrefixOf_iff_prefix]
    rcases h with h | h <;> subst h <;> simp [setAttrBlocked, hpre]

/-- C10 witness: the guard evaluated at concrete inputs through the
theorem. -/
theorem set_attr_guard_anchored_witness :
    setAttrBlocked "href" (String.mk (' ' :: "javascript:alert(1)".data)) = false
    ∧ setAttrBlocked "src" ("javascript:" ++ "x") = true :=
  ⟨set_attr_guard_anchored_no_ws_tolerance.1 "href" ' ' "javascript:alert(1)".data (by decide),
   set_attr_guard_anchored_no_ws_tolerance.2.1 "x" "src" (Or.inr rfl)⟩

/-! ## C8 — job lifecycle: queued → running → one terminal state -/

theorem getLast?_cons_ne_nil {α : Type} (a : α) {l : List α} (h : l ≠ []) :
    (a :: l).getLast? = l.getLast? := by
  cases l with
  | nil => exact absurd rfl h
  | cons b bs => simp [List.getLast?_cons_cons]

theorem runChain_shape (chain : List (String × OracleOutcome)) :
    ∀ (job : Job), job.status = .running →
      runChain job chain ≠ []
      ∧ (∀ s ∈ (runChain job chain).dropLast, s.status = .running)
      ∧ ∃ t, (runChain job chain).getLast? = some t
          ∧ (t.status = .done ∨ t.status = .error) := by
  induction chain with
  | nil =>
    intro job h
    refine ⟨by simp [runChain], by simp [runChain], ?_⟩
    exact ⟨_, rfl, Or.inr rfl⟩
  | cons mo rest ih =>
    intro job h
    match mo with
    | (m, .ok files) =>
      refine ⟨by simp [runChain], by simp [runChain], ?_⟩
      exact ⟨_, rfl, Or.inl rfl⟩
    | (m, .fail reason) =>
      have h1 : ({ job with logs := job.logs ++ ["Model " ++ m ++ " failed: " ++ reason] } : Job).status = .running := h
      obtain ⟨hne, hmid, t, hlast, hterm⟩ := ih _ h1
      refine ⟨by simp [runChain], ?_, ?_⟩
      · intro s hs
        rw [show runChain job ((m, .fail reason) :: rest) =
              { job with logs := job.logs ++ ["Model " ++ m ++ " failed: " ++ reason] } ::
                runChain { job with logs := job.logs ++ ["Model " ++ m ++ " failed: " ++ reason] } rest
            from rfl] at hs
        rw [List.dropLast_cons_of_ne_nil hne] at hs
        rcases List.mem_cons.mp hs with h2 | h2
        · subst h2; exact h1
        · exact hmid s h2
      · refine ⟨t, ?_, hterm⟩
        rw [show runChain job ((m, .fail reason) :: rest) =
              { job with logs := job.logs ++ ["Model " ++ m ++ " failed: " ++ reason] } ::
                runChain { job with logs := job.logs ++ ["Model " ++ m ++ " failed: " ++ reason] } rest
            from rfl]
        rw [getLast?_cons_ne_nil _ hne]
        exact hlast

/-- C8: a created job starts `queued`; `runJob` persists a nonempty
sequence of snapshots in which every snapshot but the last has status
`running` and the last has exactly one terminal status (`done` or
`error`) — so a terminal job never transitions again and never reverts to
`queued`/`running`. -/
theorem job_lifecycle_terminal (id prompt preset : String)
    (chain : List (String × OracleOutcome)) :
    (mkJob id prompt preset).status = .queued
    ∧ runJob (mkJob id prompt preset) chain ≠ []
    ∧ (∀ s ∈ (runJob (mkJob id prompt preset) chain).dropLast, s.status = .running)
    ∧ ∃ t, (runJob (mkJob id prompt preset) chain).getLast? = some t
        ∧ (t.status = .done ∨ t.status = .error)
    ∧ ¬(t.status = .done ∧ t.status = .error) := by
  obtain ⟨hne, hmid, t, hlast, hterm⟩ :=
    runChain_shape chain { mkJob id prompt preset with status := .running } rfl
  refine ⟨rfl, by simp [runJob], ?_, ⟨t, ?_, hterm, ?_⟩⟩
  · intro s hs
    rw [show runJob (mkJob id prompt preset) chain =
          { mkJob id prompt preset with status := .running } ::
            runChain { mkJob id prompt preset with status := .running } chain from rfl] at hs
    rw [List.dropLast_cons_of_ne_nil hne] at hs
    rcases List.mem_cons.mp hs with h2 | h2
    · subst h2; rfl
    · exact hmid s h2
  · rw [show runJob (mkJob id prompt preset) chain =
          { mkJob id prompt preset with status := .running } ::
            runChain { mkJob id prompt preset with status := .running } chain from rfl]
    rw [getLast?_cons_ne_nil _ hne]
    exact hlast
  · rintro ⟨h1, h2⟩
    rw [h1] at h2
    exact JobStatus.noConfusion h2

/-! ## C9 — ordered fallback, first success wins -/

/-- C9: with a chain whose first two backends fail and third succeeds, the
persisted snapshots are exactly: the running snapshot, one snapshot per
failure appending a log line naming that backend and reason, and a final
`done` snapshot carrying the successful backend's validated files with
`error` cleared.  No log entry names the third backend, and any further
backends in the chain are never consulted (the result does not depend on
`rest`). -/
theorem fallback_first_success_wins (j : Job) (mA mB mC ea eb : String)
    (f : SiteFiles) (rest : List (String × OracleOutcome)) :
    runJob j ([(mA, .fail ea), (mB, .fail eb), (mC, .ok f)] ++ rest) =
      [{ j with status := .running },
       { j with
          status := .running,
          logs := j.logs ++ ["Model " ++ mA ++ " failed: " ++ ea] },
       { j with
          status := .running,
          logs := j.logs ++ ["Model " ++ mA ++ " failed: " ++ ea, "Model " ++ mB ++ " failed: " ++ eb] },
       { j with
          status := .done,
          logs := j.logs ++ ["Model " ++ mA ++ " failed: " ++ ea, "Model " ++ mB ++ " failed: " ++ eb],
          result := some f,
          error := none }] := by
  simp [runJob, runChain]

/-! ## C7 — the default protected list -/

/-- Membership in the protected-set fold. -/
theorem protectedNodeIds_fold_mem (doc : DomNode) (L : List String) :
    ∀ (acc : List Nat) (n : Nat),
      (n ∈ L.foldl
          (fun acc sel =>
            match docQsa doc sel with
            | some ns => acc ++ ns.filter (fun m => !acc.contains m)
            | none => acc)
          acc
        ↔ n ∈ acc ∨ ∃ s, s ∈ L ∧ n ∈ (docQsa doc s).getD []) := by
  induction L with
  | nil => simp
  | cons s rest ih =>
    intro acc n
    simp only [List.foldl_cons]
    cases h : docQsa doc s with
    | none =>
      rw [ih]
      simp [h]
    | some ns =>
      rw [ih]
      simp only [List.mem_append, List.mem_filter, h, Option.getD_some, List.mem_cons]
      constructor
      · rintro (((hacc | ⟨hns, _⟩) | hrest))
        · exact Or.inl hacc
        · exact Or.inr ⟨s, Or.inl rfl, by simp [h, hns]⟩
        · obtain ⟨u, hu, hn⟩ := hrest
          exact Or.inr ⟨u, Or.inr hu, hn⟩
      · rintro (hacc | ⟨u, (rfl | hu), hn⟩)
        · exact Or.inl (Or.inl hacc)
        · rw [h] at hn
          simp only [Option.getD_some] at hn
          by_cases hmem : n ∈ acc
          · exact Or.inl (Or.inl hmem)
          · exact Or.inl (Or.inr ⟨hn, by simpa using hmem⟩)
        · exact Or.inr ⟨u, hu, hn⟩

/-- C7 counterexample: a document whose body holds a `nav` element
(identity 3) and a `[data-protect]` element (identity 4); both selectors
match, yet the protected set built with no caller-supplied selectors is
empty — the fixed default list protects neither. -/
theorem default_protected_misses_nav_and_data_protect :
    protectedNodeIds exDocNav [] = []
    ∧ docQsa exDocNav "nav" = some [3]
    ∧ docQsa exDocNav "[data-protect]" = some [4] := by
  refine ⟨by rfl, by rfl, by rfl⟩

/-- C7 amended: the protected-node set is the union of the nodes matched
by the fixed default list `['header', 'footer role="contentinfo"',
'script', 'link', 'meta', 'style']` — whose second entry is not valid CSS
and therefore contributes an empty match — together with the
caller-supplied selectors; any invalid selector yields an empty match
rather than an error.  `nav` and `[data-protect]` are not defaults. -/
theorem protected_set_is_union_of_defaults_and_supplied
    (doc : DomNode) (sels : List String) (n : Nat) :
    (n ∈ protectedNodeIds doc sels ↔
      ∃ s, s ∈ DEFAULT_PROTECTED ++ sels ∧ n ∈ (docQsa doc s).getD [])
    ∧ docQsa doc "footer role=\"contentinfo\"" = none
    ∧ (∀ s, docQsa doc s = none → (docQsa doc s).getD [] = []) := by
  refine ⟨?_, by rfl, fun s h => by simp [h]⟩
  rw [protectedNodeIds, protectedNodeIds_fold_mem]
  simp

/-- C7 witness: the amended characterization applied to the concrete
document — the `script` element (identity 4) of `exDocScript` is protected
because the default `script` selector matches it. -/
theorem protected_set_union_witness :
    4 ∈ protectedNodeIds exDocScript [] :=
  (protected_set_is_union_of_defaults_and_supplied exDocScript [] 4).1.mpr
    ⟨"script", by decide, by decide⟩

/-! ## C6 — `upsert_style` requires a `selector` field -/

/-- `runCandidates` on an `upsert_style` operation never touches the
forest. -/
theorem runCandidates_upsert_forest_eq (protIds safeRoots : List Nat) (maxOps : Int)
    (op : Op) (hop : op.op = "upsert_style") :
    ∀ (cands : List Nat) (st st' : EngineState),
      runCandidates protIds safeRoots maxOps op cands st = .ok st' →
      st'.forest = st.forest := by
  intro cands
  induction cands with
  | nil =>
    intro st st' h
    simp only [runCandidates] at h
    cases h
    rfl
  | cons el rest ih =>
    intro st st' h
    simp only [runCandidates, hop, String.reduceEq, reduceIte] at h
    by_cases hb : budgetExhausted maxOps st.changed = true
    · rw [if_pos hb] at h
      cases h
      rfl
    · rw [if_neg hb] at h
      by_cases hp : inProtected st.forest protIds el = true
      · rw [if_pos hp] at h
        exact ih st st' h
      · rw [if_neg hp] at h
        rcases hc : op.cssSelector with _ | c <;> rw [hc] at h <;>
          [skip; rcases hs : op.styleRules with _ | s] <;> [skip; rw [hs] at h; rw [hs] at h] <;>
          dsimp only at h
        · exact ih st st' h
        · exact ih st st' h
        · by_cases hcs : (decide (c = "") || decide (s = "")) = true
          · rw [if_pos hcs] at h
            exact ih st st' h
          · rw [if_neg hcs] at h
            have h2 := ih _ st' h
            exact h2

/-- `runOps` over operations that are all `upsert_style` never touches the
forest. -/
theorem runOps_upsert_forest_eq (protIds safeRoots : List Nat) (maxOps : Int) :
    ∀ (ops : List Op) (st st' : EngineState),
      (∀ op ∈ ops, op.op = "upsert_style") →
      runOps protIds safeRoots maxOps ops st = .ok st' →
      st'.forest = st.forest := by
  intro ops
  induction ops with
  | nil =>
    intro st st' _ h
    simp only [runOps] at h
    cases h
    rfl
  | cons op rest ih =>
    intro st st' hall h
    have hop : op.op = "upsert_style" := hall op (List.mem_cons_self op rest)
    have hrest : ∀ o ∈ rest, o.op = "upsert_style" :=
      fun o ho => hall o (List.mem_cons_of_mem op ho)
    simp only [runOps] at h
    by_cases hb : budgetExhausted maxOps st.changed = true
    · rw [if_pos hb] at h
      cases h
      rfl
    · rw [if_neg hb] at h
      by_cases hsel : (decide (op.selector = "") || decide (op.op = "")) = true
      · rw [if_pos hsel] at h
        exact ih st st' hrest h
      · rw [if_neg hsel] at h
        by_cases hemp : (collectCandidates st.forest safeRoots op.selector st.seen).1.isEmpty = true
        · rw [if_pos hemp] at h
          have h2 := ih _ st' hrest h
          exact h2
        · rw [if_neg hemp] at h
          cases hrc : runCandidates protIds safeRoots maxOps op
              (collectCandidates st.forest safeRoots op.selector st.seen).1
              { st with seen := (collectCandidates st.forest safeRoots op.selector st.seen).2 } with
          | error e =>
            rw [hrc] at h
            cases h
          | ok st2 =>
            rw [hrc] at h
            have h3 := runCandidates_upsert_forest_eq protIds safeRoots maxOps op hop _ _ _ hrc
            rw [ih st2 st' hrest h, h3]

/-- C6 counterexample: an `upsert_style` operation carrying exactly the
spec's UpsertStyle fields (`cssSelector`, `styleRules`, no `selector`) is
*not* executed — `applyOps` skips it at the `!selector` guard, returning
the css text unchanged, `changed = 0` and an empty log. -/
theorem upsert_style_without_selector_is_skipped :
    applyOps exReqUpsertNoSelector =
      .ok ⟨exDocNav, "p \x7b color: red \x7d", 0, []⟩ := by rfl

/-- C6 amended: an `upsert_style` operation is executed only when it also
carries a truthy `selector` whose matches inside the scope roots include
at least one unprotected element; it is then applied once per such
candidate.  When executed it mutates only the opaque CSS text via the
upsert of §4.4: any request whose operations are all `upsert_style` leaves
the HTML document untouched (shown in general), and the concrete
selector-carrying request performs the upsert with `changed = 1`. -/
theorem upsert_style_with_selector_touches_css_only :
    (∀ (req : PatchRequest) (res : PatchResult),
        (∀ op ∈ req.ops, op.op = "upsert_style") →
        applyOps req = .ok res → res.doc = req.doc)
    ∧ applyOps exReqUpsertWithSelector =
        .ok ⟨exDocNav, "\n.a \x7b color: blue \x7d", 1,
             [⟨"upsert_style", ".a", none, none⟩]⟩ := by
  refine ⟨?_, by rfl⟩
  intro req res hall h
  simp only [applyOps, applyOpsFull] at h
  cases hr : resolveRoots req.doc req.root with
  | error e =>
    rw [hr] at h
    cases h
  | ok roots =>
    rw [hr] at h
    dsimp only at h
    cases hro : runOps (protectedNodeIds req.doc req.protectedSelectors)
        (if roots.isEmpty then [bodyNid req.doc] else roots) req.maxOps req.ops
        ⟨[req.doc], req.css, 0, [], [], maxNid req.doc + 1, []⟩ with
    | error e =>
      rw [hro] at h
      cases h
    | ok st =>
      rw [hro] at h
      cases h
      have h2 := runOps_upsert_forest_eq _ _ _ _ _ _ hall hro
      simp only [h2]
      rfl

/-- C6 witness: the general css-only part applied to the concrete
selector-carrying request. -/
theorem upsert_style_css_only_witness :
    ∃ res, applyOps exReqUpsertWithSelector = .ok res ∧ res.doc = exDocNav :=
  ⟨_, upsert_style_with_selector_touches_css_only.2,
   upsert_style_with_selector_touches_css_only.1 exReqUpsertWithSelector _
     (by intro op hop; simp only [exReqUpsertWithSelector, List.mem_singleton] at hop; rw [hop])
     upsert_style_with_selector_touches_css_only.2⟩

/-! ## C2 — what the sanitizer removes -/

theorem noDangerL_append (xs ys : List DomNode) :
    noDangerL (xs ++ ys) = (noDangerL xs && noDangerL ys) := by
  induction xs with
  | nil => simp [noDangerL]
  | cons c cs ih => simp [noDangerL, ih, Bool.and_assoc]

mutual

theorem dropDangerous_noDanger (t : DomNode) : noDangerL (dropDangerous t) = true := by
  cases t with
  | text s => simp [dropDangerous, noDangerL, noDanger]
  | elem i tg a cs =>
    by_cases hd : dangerousElem tg a = true
    · simp [dropDangerous, hd, noDangerL]
    · simp only [dropDangerous, hd, if_neg, Bool.false_eq_true, if_false, noDangerL, noDanger]
      simp [hd, dropDangerousL_noDanger cs]

theorem dropDangerousL_noDanger (l : List DomNode) : noDangerL (dropDangerousL l) = true := by
  cases l with
  | nil => simp [dropDangerousL, noDangerL]
  | cons c cs =>
    simp only [dropDangerousL, noDangerL_append]
    simp [dropDangerous_noDanger c, dropDangerousL_noDanger cs]

end

/-- `keepAttr` never removes a `rel` attribute. -/
theorem keepAttr_rel (v : String) : keepAttr ("rel", v) = true := rfl

/-- Stripping attributes does not change what a `rel` lookup sees. -/
theorem attrLookup_filter_keepAttr_rel (a : List (String × String)) :
    attrLookup (a.filter keepAttr) "rel" = attrLookup a "rel" := by
  induction a with
  | nil => rfl
  | cons p rest ih =>
    obtain ⟨k, v⟩ := p
    by_cases hk : keepAttr (k, v) = true
    · by_cases hrel : k = "rel"
      · subst hrel
        simp [attrLookup, List.filter, hk]
      · simp [attrLookup, List.filter, hk, hrel] at ih ⊢
        exact ih
    · have hkrel : k ≠ "rel" := by
        intro hcontra
        subst hcontra
        exact hk (keepAttr_rel v)
      simp [attrLookup, List.filter, hk, hkrel] at ih ⊢
      exact ih

/-- Attribute stripping cannot make an element dangerous (or safe): the
dangerous test only reads the tag and the `rel` attribute, which stripping
preserves. -/
theorem dangerousElem_filter_keepAttr (tg : String) (a : List (String × String)) :
    dangerousElem tg (a.filter keepAttr) = dangerousElem tg a := by
  simp [dangerousElem, attrLookup_filter_keepAttr_rel]

theorem filter_all_self (a : List (String × String)) :
    (a.filter keepAttr).all keepAttr = true := by
  induction a with
  | nil => rfl
  | cons p rest ih =>
    by_cases hk : keepAttr p = true
    · simp [List.filter, hk, ih]
    · simp [List.filter, hk, ih]

mutual

theorem stripAttrs_clean (t : DomNode) (h : noDanger t = true) :
    cleanNode (stripAttrs t) = true := by
  cases t with
  | text s => simp [stripAttrs, cleanNode]
  | elem i tg a cs =>
    simp only [noDanger, Bool.and_eq_true] at h
    simp only [stripAttrs, cleanNode, dangerousElem_filter_keepAttr, Bool.and_eq_true]
    exact ⟨⟨h.1, filter_all_self a⟩, stripAttrsL_clean cs h.2⟩

theorem stripAttrsL_clean (l : List DomNode) (h : noDangerL l = true) :
    cleanNodeL (stripAttrsL l) = true := by
  cases l with
  | nil => simp [stripAttrsL, cleanNodeL]
  | cons c cs =>
    simp only [noDangerL, Bool.and_eq_true] at h
    simp only [stripAttrsL, cleanNodeL, Bool.and_eq_true]
    exact ⟨stripAttrs_clean c h.1, stripAttrsL_clean cs h.2⟩

end

mutual

theorem renumber_clean (t : DomNode) (k : Nat) (h : cleanNode t = true) :
    cleanNode (renumber t k).1 = true := by
  cases t with
  | text s => simp [renumber, cleanNode]
  | elem i tg a cs =>
    simp only [cleanNode, Bool.and_eq_true] at h
    simp only [renumber, cleanNode, Bool.and_eq_true]
    exact ⟨h.1, renumberL_clean cs (k + 1) h.2⟩

theorem renumberL_clean (l : List DomNode) (k : Nat) (h : cleanNodeL l = true) :
    cleanNodeL (renumberL l k).1 = true := by
  cases l with
  | nil => simp [renumberL, cleanNodeL]
  | cons c cs =>
    simp only [cleanNodeL, Bool.and_eq_true] at h
    simp only [renumberL, cleanNodeL, Bool.and_eq_true]
    exact ⟨renumber_clean c k h.1, renumberL_clean cs _ h.2⟩

end

/-- C2 counterexample: a `<style>` element passes through
`sanitizeHtmlFragment` untouched — the dangerous-element selector does not
list `style`, so style tags are *not* removed. -/
theorem sanitize_keeps_style_elements :
    sanitizeHtmlFragment [.elem 9 "style" [] [.text "body \x7b \x7d"]] =
      [.elem 9 "style" [] [.text "body \x7b \x7d"]] := by rfl

/-- C2 amended: on every fragment, `sanitizeHtmlFragment` removes the
entire node for every script, iframe, object, embed, meta and
stylesheet-link tag (but *not* `style` tags); removes every attribute
whose name starts with `on` case-insensitively; and removes `href`/`src`
attributes whose value is a `javascript:` URI, tolerating leading
whitespace.  The cleanliness predicate survives the fresh renumbering done
when the fragment is inserted by `append_html`/`replace_html`. -/
theorem sanitize_removes_dangerous_constructs (frag : List DomNode) (k : Nat) :
    cleanNodeL (sanitizeHtmlFragment frag) = true
    ∧ cleanNodeL (renumberL (sanitizeHtmlFragment frag) k).1 = true := by
  have h1 := stripAttrsL_clean _ (dropDangerousL_noDanger frag)
  exact ⟨h1, renumberL_clean _ _ h1⟩

/-! ## C3 — the `maxOps` budget bounds `changed` -/

theorem budget_bumpP {maxOps : Int} {c : Nat} (h : ¬(budgetExhausted maxOps c = true)) :
    0 < maxOps → (((c + 1 : Nat) : Int)) ≤ maxOps := by
  intro hm
  simp only [budgetExhausted, if_pos hm, decide_eq_true_eq] at h
  push_cast
  omega

set_option maxHeartbeats 2000000 in
theorem runCandidates_budget (protIds safeRoots : List Nat) (maxOps : Int) (op : Op) :
    ∀ (cands : List Nat) (st : EngineState), ∀ (st' : EngineState),
      runCandidates protIds safeRoots maxOps op cands st = .ok st' →
      (0 < maxOps → (st.changed : Int) ≤ maxOps) →
      (0 < maxOps → (st'.changed : Int) ≤ maxOps) := by
  intro cands st
  induction cands, st using runCandidates.induct protIds safeRoots maxOps op
  all_goals intro st' h hP
  all_goals simp only [runCandidates, *, String.reduceEq, reduceIte, Bool.false_eq_true,
    if_true, if_false] at h
  all_goals try (simp only [*] at *)
  all_goals try (cases h; exact hP)
  all_goals try (cases h)
  all_goals solve_by_elim [budget_bumpP]

set_option maxHeartbeats 1000000 in
theorem runOps_budget (protIds safeRoots : List Nat) (maxOps : Int) :
    ∀ (ops : List Op) (st : EngineState), ∀ (st' : EngineState),
      runOps protIds safeRoots maxOps ops st = .ok st' →
      (0 < maxOps → (st.changed : Int) ≤ maxOps) →
      (0 < maxOps → (st'.changed : Int) ≤ maxOps) := by
  intro ops st
  induction ops, st using runOps.induct protIds safeRoots maxOps
  all_goals intro st' h hP
  all_goals simp only [runOps, *, String.reduceEq, reduceIte, Bool.false_eq_true,
    if_true, if_false] at h
  all_goals try (simp only [*] at *)
  all_goals try (cases h; exact hP)
  all_goals try (cases h)
  all_goals solve_by_elim [runCandidates_budget]

/-- C3: for every request, a positive `maxOps = N` bounds the returned
`changed` by `N` (the budget is re-checked before each operation and each
candidate), while a zero or negative `maxOps` disables the stop check
entirely (unbounded). -/
theorem maxOps_budget_bounds_changed :
    (∀ (req : PatchRequest) (res : PatchResult),
        applyOps req = .ok res → 0 < req.maxOps → (res.changed : Int) ≤ req.maxOps)
    ∧ (∀ (m : Int) (c : Nat), m ≤ 0 → budgetExhausted m c = false) := by
  constructor
  · intro req res h hm
    simp only [applyOps, applyOpsFull] at h
    cases hr : resolveRoots req.doc req.root with
    | error e =>
      rw [hr] at h
      cases h
    | ok roots =>
      rw [hr] at h
      dsimp only at h
      cases hro : runOps (protectedNodeIds req.doc req.protectedSelectors)
          (if roots.isEmpty then [bodyNid req.doc] else roots) req.maxOps req.ops
          ⟨[req.doc], req.css, 0, [], [], maxNid req.doc + 1, []⟩ with
      | error e =>
        rw [hro] at h
        cases h
      | ok st =>
        rw [hro] at h
        cases h
        exact runOps_budget _ _ _ _ _ _ hro (fun _ => by simp; omega) hm
  · intro m c hm
    simp only [budgetExhausted]
    rw [if_neg (by omega)]

/-- C3 witness: the bound evaluated on a concrete successful run with
`maxOps = 200`. -/
theorem maxOps_budget_witness :
    ∃ res, applyOps exReqDestroyScript = .ok res ∧ (res.changed : Int) ≤ 200 :=
  ⟨_, rfl, maxOps_budget_bounds_changed.1 exReqDestroyScript _ rfl (by decide)⟩

/-! ## C5 — exception behavior of `applyOps` -/

set_option maxHeartbeats 2000000 in
theorem runCandidates_no_error (protIds safeRoots : List Nat) (maxOps : Int) (op : Op)
    (hop : ∀ a, op.op = "set_attr" → op.attr = some a → a ≠ "" → validAttrName a = true) :
    ∀ (cands : List Nat) (st : EngineState),
      ∃ st', runCandidates protIds safeRoots maxOps op cands st = .ok st' := by
  intro cands st
  induction cands, st using runCandidates.induct protIds safeRoots maxOps op
  all_goals simp only [runCandidates, *, String.reduceEq, reduceIte, Bool.false_eq_true,
    if_true, if_false]
  all_goals try (simp only [*] at *)
  all_goals first
    | exact ⟨_, rfl⟩
    | assumption
    | exact absurd (hop _ (by trivial) (by trivial) (by trivial)) (by assumption)

theorem runOps_no_error (protIds safeRoots : List Nat) (maxOps : Int) :
    ∀ (ops : List Op) (st : EngineState),
      (∀ op ∈ ops, ∀ a, op.op = "set_attr" → op.attr = some a → a ≠ "" → validAttrName a = true) →
      ∃ st', runOps protIds safeRoots maxOps ops st = .ok st' := by
  intro ops
  induction ops with
  | nil =>
    intro st _
    exact ⟨st, rfl⟩
  | cons op rest ih =>
    intro st hall
    have hop := hall op (List.mem_cons_self op rest)
    have hrest := fun o ho => hall o (List.mem_cons_of_mem op ho)
    simp only [runOps]
    by_cases hb : budgetExhausted maxOps st.changed = true
    · rw [if_pos hb]
      exact ⟨st, rfl⟩
    · rw [if_neg hb]
      by_cases hsel : (decide (op.selector = "") || decide (op.op = "")) = true
      · rw [if_pos hsel]
        exact ih _ hrest
      · rw [if_neg hsel]
        by_cases hemp : (collectCandidates st.forest safeRoots op.selector st.seen).1.isEmpty = true
        · rw [if_pos hemp]
          exact ih _ hrest
        · rw [if_neg hemp]
          obtain ⟨st2, h2⟩ := runCandidates_no_error protIds safeRoots maxOps op hop _ _
          rw [h2]
          exact ih _ hrest

/-- C5 counterexample: `applyOps` *can* raise on a malformed individual
operation: a `set_attr` whose attribute name contains a space passes every
engine guard and makes `setAttribute` throw `InvalidCharacterError`, which
nothing catches. -/
theorem set_attr_invalid_name_raises :
    applyOps exReqBadAttr = .error "InvalidCharacterError" := by rfl

/-- C5 amended: `applyOps` never raises on malformed operations —
arbitrary operation selectors (caught by `try`), unknown kinds, wrong
field types all degrade to being ignored — *provided* every `set_attr`
operation carries a valid attribute name, and every `upsert_style`
operation's `cssSelector` trims to a regex-literal string.  The second
proviso marks a further uncaught error path of the source: the selector
reaches `new RegExp` unescaped (the line-79 escape is inert), so a
regex-invalid `cssSelector` such as `*` or `a(` makes the constructor
throw a `SyntaxError` out of `applyOps`; within the proviso the compiled
pattern is the literal matcher modeled here and cannot throw.  The
remaining hard failures are an unparsable root document (outside the
engine) and an invalid *root* selector, both surfaced before any
mutation. -/
theorem applyOps_no_raise_with_valid_attrs_and_literal_css_selectors
    (req : PatchRequest)
    (hroot : ∃ roots, resolveRoots req.doc req.root = .ok roots)
    (hattrs : ∀ op ∈ req.ops, ∀ a, op.op = "set_attr" → op.attr = some a → a ≠ "" →
      validAttrName a = true)
    (_hsels : ∀ op ∈ req.ops, ∀ c, op.op = "upsert_style" → op.cssSelector = some c →
      selRegexLiteral (String.mk (jsTrim c.data)) = true) :
    ∃ res, applyOps req = .ok res := by
  obtain ⟨roots, hr⟩ := hroot
  obtain ⟨st, hro⟩ := runOps_no_error (protectedNodeIds req.doc req.protectedSelectors)
    (if roots.isEmpty then [bodyNid req.doc] else roots) req.maxOps req.ops
    ⟨[req.doc], req.css, 0, [], [], maxNid req.doc + 1, []⟩ hattrs
  refine ⟨⟨st.forest.headD req.doc, st.css, st.changed, st.applied⟩, ?_⟩
  simp only [applyOps, applyOpsFull, hr]
  try dsimp only
  rw [hro]

/-- C5 witness: the no-raise theorem applied to a concrete request whose
single operation is neither a `set_attr` nor an `upsert_style`. -/
theorem applyOps_no_raise_witness :
    ∃ res, applyOps exReqDestroyScript = .ok res :=
  applyOps_no_raise_with_valid_attrs_and_literal_css_selectors exReqDestroyScript ⟨[], rfl⟩
    (by
      intro op hop a h1 h2
      simp only [exReqDestroyScript, List.mem_singleton] at hop
      rw [hop] at h1
      exact absurd h1 (by decide))
    (by
      intro op hop c h1 h2
      simp only [exReqDestroyScript, List.mem_singleton] at hop
      rw [hop] at h1
      exact absurd h1 (by decide))

/-! ## C1 — protection: tree lemmas -/

theorem nidsOfL_append (xs ys : List DomNode) :
    nidsOfL (xs ++ ys) = nidsOfL xs ++ nidsOfL ys := by
  induction xs with
  | nil => simp [nidsOfL]
  | cons c cs ih => simp [nidsOfL, ih]

theorem getSubtreeL_append (xs ys : List DomNode) (p : Nat) :
    getSubtreeL (xs ++ ys) p = (getSubtreeL xs p).orElse (fun _ => getSubtreeL ys p) := by
  induction xs with
  | nil => simp [getSubtreeL, Option.orElse]
  | cons c cs ih =>
    simp only [List.cons_append, getSubtreeL]
    cases getSubtree c p with
    | some r => simp [Option.orElse]
    | none => simpa [Option.orElse] using ih

mutual

theorem getSubtree_none_iff (t : DomNode) (p : Nat) :
    getSubtree t p = none ↔ p ∉ nidsOf t := by
  cases t with
  | text s => simp [getSubtree, nidsOf]
  | elem i tg a cs =>
    by_cases hip : i = p
    · subst hip
      simp [getSubtree, nidsOf]
    · rw [show getSubtree (.elem i tg a cs) p = getSubtreeL cs p by
        simp [getSubtree, hip]]
      rw [getSubtreeL_none_iff cs p]
      simp [nidsOf, hip, Ne.symm hip]

theorem getSubtreeL_none_iff (l : List DomNode) (p : Nat) :
    getSubtreeL l p = none ↔ p ∉ nidsOfL l := by
  cases l with
  | nil => simp [getSubtreeL, nidsOfL]
  | cons c cs =>
    simp only [getSubtreeL, nidsOfL, List.mem_append]
    cases hc : getSubtree c p with
    | some r =>
      have : p ∈ nidsOf c := by
        by_contra hmem
        rw [← getSubtree_none_iff c p] at hmem
        rw [hc] at hmem
        cases hmem
      simp [this]
    | none =>
      have hpc : p ∉ nidsOf c := (getSubtree_none_iff c p).mp hc
      rw [getSubtreeL_none_iff cs p]
      simp [hpc]

end

theorem getSubtreeL_some_mem {l : List DomNode} {p : Nat} {tp : DomNode}
    (h : getSubtreeL l p = some tp) : p ∈ nidsOfL l := by
  by_contra hmem
  rw [← getSubtreeL_none_iff l p] at hmem
  rw [h] at hmem
  cases hmem

mutual

theorem getSubtree_some_shape (t : DomNode) (p : Nat) :
    ∀ tp, getSubtree t p = some tp →
      ∃ tg a cs, tp = DomNode.elem p tg a cs := by
  cases t with
  | text s => intro tp h; cases h
  | elem i tg a cs =>
    intro tp h
    by_cases hip : i = p
    · subst hip
      rw [show getSubtree (.elem i tg a cs) i = some (.elem i tg a cs) by
        simp [getSubtree]] at h
      exact ⟨tg, a, cs, (Option.some.inj h).symm⟩
    · rw [show getSubtree (.elem i tg a cs) p = getSubtreeL cs p by
        simp [getSubtree, hip]] at h
      exact getSubtreeL_some_shape cs p tp h

theorem getSubtreeL_some_shape (l : List DomNode) (p : Nat) :
    ∀ tp, getSubtreeL l p = some tp →
      ∃ tg a cs, tp = DomNode.elem p tg a cs := by
  cases l with
  | nil => intro tp h; cases h
  | cons c cs =>
    intro tp h
    simp only [getSubtreeL] at h
    cases hc : getSubtree c p with
    | some r =>
      rw [hc] at h
      cases h
      exact getSubtree_some_shape c p _ hc
    | none =>
      rw [hc] at h
      exact getSubtreeL_some_shape cs p tp h

end

/-- The root identity of a found subtree belongs to the subtree. -/
theorem getSubtreeL_some_self_mem {l : List DomNode} {p : Nat} {tp : DomNode}
    (h : getSubtreeL l p = some tp) : p ∈ nidsOf tp := by
  obtain ⟨tg, a, cs, rfl⟩ := getSubtreeL_some_shape l p tp h
  simp [nidsOf]

mutual

theorem replaceChildrenAt_absent (t : DomNode) (n : Nat) (new : List DomNode)
    (h : n ∉ nidsOf t) : replaceChildrenAt t n new = (t, []) := by
  cases t with
  | text s => simp [replaceChildrenAt]
  | elem i tg a cs =>
    have hin : i ≠ n := by
      intro hcontra
      exact h (by simp [nidsOf, hcontra])
    have hcs : n ∉ nidsOfL cs := fun hc => h (by simp [nidsOf, hc])
    simp [replaceChildrenAt, hin, replaceChildrenAtL_absent cs n new hcs]

theorem replaceChildrenAtL_absent (l : List DomNode) (n : Nat) (new : List DomNode)
    (h : n ∉ nidsOfL l) : replaceChildrenAtL l n new = (l, []) := by
  cases l with
  | nil => simp [replaceChildrenAtL]
  | cons c cs =>
    have hc : n ∉ nidsOf c := fun hx => h (by simp [nidsOfL, hx])
    have hcs : n ∉ nidsOfL cs := fun hx => h (by simp [nidsOfL, hx])
    simp [replaceChildrenAtL, replaceChildrenAt_absent c n new hc,
      replaceChildrenAtL_absent cs n new hcs]

end

mutual

theorem appendChildrenAt_absent (t : DomNode) (n : Nat) (frag : List DomNode)
    (h : n ∉ nidsOf t) : appendChildrenAt t n frag = t := by
  cases t with
  | text s => simp [appendChildrenAt]
  | elem i tg a cs =>
    have hin : i ≠ n := by
      intro hcontra
      exact h (by simp [nidsOf, hcontra])
    have hcs : n ∉ nidsOfL cs := fun hc => h (by simp [nidsOf, hc])
    simp [appendChildrenAt, hin, appendChildrenAtL_absent cs n frag hcs]

theorem appendChildrenAtL_absent (l : List DomNode) (n : Nat) (frag : List DomNode)
    (h : n ∉ nidsOfL l) : appendChildrenAtL l n frag = l := by
  cases l with
  | nil => simp [appendChildrenAtL]
  | cons c cs =>
    have hc : n ∉ nidsOf c := fun hx => h (by simp [nidsOfL, hx])
    have hcs : n ∉ nidsOfL cs := fun hx => h (by simp [nidsOfL, hx])
    simp [appendChildrenAtL, appendChildrenAt_absent c n frag hc,
      appendChildrenAtL_absent cs n frag hcs]

end

mutual

theorem updateAttrsAt_nids (t : DomNode) (n : Nat)
    (g : List (String × String) → List (String × String)) :
    nidsOf (updateAttrsAt t n g) = nidsOf t := by
  cases t with
  | text s => simp [updateAttrsAt]
  | elem i tg a cs =>
    by_cases hin : i = n
    · simp [updateAttrsAt, hin, nidsOf]
    · simp [updateAttrsAt, hin, nidsOf, updateAttrsAtL_nids cs n g]

theorem updateAttrsAtL_nids (l : List DomNode) (n : Nat)
    (g : List (String × String) → List (String × String)) :
    nidsOfL (updateAttrsAtL l n g) = nidsOfL l := by
  cases l with
  | nil => simp [updateAttrsAtL]
  | cons c cs =>
    simp [updateAttrsAtL, nidsOfL, updateAttrsAt_nids c n g, updateAttrsAtL_nids cs n g]

end

mutual

theorem replaceChildrenAt_nids_perm (t : DomNode) (n : Nat) (new : List DomNode)
    (hnd : (nidsOf t).Nodup) (hmem : n ∈ nidsOf t) :
    List.Perm (nidsOf (replaceChildrenAt t n new).1 ++ nidsOfL (replaceChildrenAt t n new).2)
      (nidsOf t ++ nidsOfL new) := by
  cases t with
  | text s => cases hmem
  | elem i tg a cs =>
    by_cases hin : i = n
    · subst hin
      simp only [replaceChildrenAt, if_pos rfl, if_true]
      simp only [nidsOf]
      rw [List.perm_iff_count]
      intro x
      simp only [List.count_append, List.count_cons]
      omega
    · have hmem2 : n ∈ nidsOfL cs := by
        simp only [nidsOf, List.mem_cons] at hmem
        rcases hmem with h | h
        · exact absurd h.symm hin
        · exact h
      have hnd2 : (nidsOfL cs).Nodup := by
        simp only [nidsOf, List.nodup_cons] at hnd
        exact hnd.2
      have hperm := replaceChildrenAtL_nids_perm cs n new hnd2 hmem2
      simp only [replaceChildrenAt, if_neg hin]
      simp only [nidsOf]
      rw [List.perm_iff_count]
      intro x
      have h2 := hperm.count_eq x
      simp only [List.count_append, List.count_cons] at h2 ⊢
      omega

theorem replaceChildrenAtL_nids_perm (l : List DomNode) (n : Nat) (new : List DomNode)
    (hnd : (nidsOfL l).Nodup) (hmem : n ∈ nidsOfL l) :
    List.Perm (nidsOfL (replaceChildrenAtL l n new).1 ++ nidsOfL (replaceChildrenAtL l n new).2)
      (nidsOfL l ++ nidsOfL new) := by
  cases l with
  | nil => cases hmem
  | cons c cs =>
    simp only [nidsOfL, List.nodup_append] at hnd
    by_cases hc : n ∈ nidsOf c
    · have hcs : n ∉ nidsOfL cs := fun hx => hnd.2.2 hc hx
      have hperm := replaceChildrenAt_nids_perm c n new hnd.1 hc
      simp only [replaceChildrenAtL, replaceChildrenAtL_absent cs n new hcs]
      simp only [nidsOfL, nidsOfL_append]
      rw [List.perm_iff_count]
      intro x
      have h2 := hperm.count_eq x
      simp only [List.count_append, List.count_nil] at h2 ⊢
      omega
    · have hcs : n ∈ nidsOfL cs := by
        simp only [nidsOfL, List.mem_append] at hmem
        rcases hmem with h | h
        · exact absurd h hc
        · exact h
      have hperm := replaceChildrenAtL_nids_perm cs n new hnd.2.1 hcs
      simp only [replaceChildrenAtL, replaceChildrenAt_absent c n new hc]
      simp only [nidsOfL, nidsOfL_append]
      rw [List.perm_iff_count]
      intro x
      have h2 := hperm.count_eq x
      simp only [List.count_append, List.count_nil] at h2 ⊢
      omega

end

mutual

theorem appendChildrenAt_nids_perm (t : DomNode) (n : Nat) (frag : List DomNode)
    (hnd : (nidsOf t).Nodup) (hmem : n ∈ nidsOf t) :
    List.Perm (nidsOf (appendChildrenAt t n frag)) (nidsOf t ++ nidsOfL frag) := by
  cases t with
  | text s => cases hmem
  | elem i tg a cs =>
    by_cases hin : i = n
    · subst hin
      simp only [appendChildrenAt, if_pos rfl, if_true]
      simp only [nidsOf, nidsOfL_append]
      rw [List.perm_iff_count]
      intro x
      simp only [List.count_append, List.count_cons]
      omega
    · have hmem2 : n ∈ nidsOfL cs := by
        simp only [nidsOf, List.mem_cons] at hmem
        rcases hmem with h | h
        · exact absurd h.symm hin
        · exact h
      have hnd2 : (nidsOfL cs).Nodup := by
        simp only [nidsOf, List.nodup_cons] at hnd
        exact hnd.2
      have hperm := appendChildrenAtL_nids_perm cs n frag hnd2 hmem2
      simp only [appendChildrenAt, if_neg hin]
      simp only [nidsOf]
      rw [List.perm_iff_count]
      intro x
      have h2 := hperm.count_eq x
      simp only [List.count_append, List.count_cons] at h2 ⊢
      omega

theorem appendChildrenAtL_nids_perm (l : List DomNode) (n : Nat) (frag : List DomNode)
    (hnd : (nidsOfL l).Nodup) (hmem : n ∈ nidsOfL l) :
    List.Perm (nidsOfL (appendChildrenAtL l n frag)) (nidsOfL l ++ nidsOfL frag) := by
  cases l with
  | nil => cases hmem
  | cons c cs =>
    simp only [nidsOfL, List.nodup_append] at hnd
    by_cases hc : n ∈ nidsOf c
    · have hcs : n ∉ nidsOfL cs := fun hx => hnd.2.2 hc hx
      have hperm := appendChildrenAt_nids_perm c n frag hnd.1 hc
      simp only [appendChildrenAtL, appendChildrenAtL_absent cs n frag hcs]
      simp only [nidsOfL]
      rw [List.perm_iff_count]
      intro x
      have h2 := hperm.count_eq x
      simp only [List.count_append] at h2 ⊢
      omega
    · have hcs : n ∈ nidsOfL cs := by
        simp only [nidsOfL, List.mem_append] at hmem
        rcases hmem with h | h
        · exact absurd h hc
        · exact h
      have hperm := appendChildrenAtL_nids_perm cs n frag hnd.2.1 hcs
      simp only [appendChildrenAtL, appendChildrenAt_absent c n frag hc]
      simp only [nidsOfL]
      rw [List.perm_iff_count]
      intro x
      have h2 := hperm.count_eq x
      simp only [List.count_append] at h2 ⊢
      omega

end

mutual

theorem replaceChildrenAt_fst_nids (t : DomNode) (n : Nat) (new : List DomNode) (q : Nat)
    (h : q ∈ nidsOf (replaceChildrenAt t n new).1) : q ∈ nidsOf t ∨ q ∈ nidsOfL new := by
  cases t with
  | text s => simp [replaceChildrenAt, nidsOf] at h
  | elem i tg a cs =>
    by_cases hin : i = n
    · subst hin
      simp only [replaceChildrenAt, if_pos rfl, if_true, nidsOf, List.mem_cons] at h
      rcases h with h | h
      · exact Or.inl (by simp [nidsOf, h])
      · exact Or.inr h
    · simp only [replaceChildrenAt, if_neg hin, nidsOf, List.mem_cons] at h
      rcases h with h | h
      · exact Or.inl (by simp [nidsOf, h])
      · rcases replaceChildrenAtL_fst_nids cs n new q h with h2 | h2
        · exact Or.inl (by simp [nidsOf, h2])
        · exact Or.inr h2

theorem replaceChildrenAtL_fst_nids (l : List DomNode) (n : Nat) (new : List DomNode) (q : Nat)
    (h : q ∈ nidsOfL (replaceChildrenAtL l n new).1) : q ∈ nidsOfL l ∨ q ∈ nidsOfL new := by
  cases l with
  | nil => simp [replaceChildrenAtL, nidsOfL] at h
  | cons c cs =>
    simp only [replaceChildrenAtL, nidsOfL, List.mem_append] at h
    rcases h with h | h
    · rcases replaceChildrenAt_fst_nids c n new q h with h2 | h2
      · exact Or.inl (by simp [nidsOfL, h2])
      · exact Or.inr h2
    · rcases replaceChildrenAtL_fst_nids cs n new q h with h2 | h2
      · exact Or.inl (by simp [nidsOfL, h2])
      · exact Or.inr h2

end

mutual

theorem replaceChildrenAt_snd_nids (t : DomNode) (n : Nat) (new : List DomNode) (q : Nat)
    (h : q ∈ nidsOfL (replaceChildrenAt t n new).2) : q ∈ nidsOf t := by
  cases t with
  | text s => simp [replaceChildrenAt, nidsOfL] at h
  | elem i tg a cs =>
    by_cases hin : i = n
    · subst hin
      simp only [replaceChildrenAt, if_pos rfl, if_true] at h
      simp [nidsOf, h]
    · simp only [replaceChildrenAt, if_neg hin] at h
      have h2 := replaceChildrenAtL_snd_nids cs n new q h
      simp [nidsOf, h2]

theorem replaceChildrenAtL_snd_nids (l : List DomNode) (n : Nat) (new : List DomNode) (q : Nat)
    (h : q ∈ nidsOfL (replaceChildrenAtL l n new).2) : q ∈ nidsOfL l := by
  cases l with
  | nil => simp [replaceChildrenAtL, nidsOfL] at h
  | cons c cs =>
    simp only [replaceChildrenAtL, nidsOfL_append, List.mem_append] at h
    rcases h with h | h
    · have h2 := replaceChildrenAt_snd_nids c n new q h
      simp [nidsOfL, h2]
    · have h2 := replaceChildrenAtL_snd_nids cs n new q h
      simp [nidsOfL, h2]

end

mutual

theorem appendChildrenAt_nids_sub (t : DomNode) (n : Nat) (frag : List DomNode) (q : Nat)
    (h : q ∈ nidsOf (appendChildrenAt t n frag)) : q ∈ nidsOf t ∨ q ∈ nidsOfL frag := by
  cases t with
  | text s => simpa [appendChildrenAt, nidsOf] using Or.inl h
  | elem i tg a cs =>
    by_cases hin : i = n
    · subst hin
      simp only [appendChildrenAt, if_pos rfl, if_true, nidsOf, nidsOfL_append,
        List.mem_cons, List.mem_append] at h
      rcases h with h | h | h
      · exact Or.inl (by simp [nidsOf, h])
      · exact Or.inl (by simp [nidsOf, h])
      · exact Or.inr h
    · simp only [appendChildrenAt, if_neg hin, nidsOf, List.mem_cons] at h
      rcases h with h | h
      · exact Or.inl (by simp [nidsOf, h])
      · rcases appendChildrenAtL_nids_sub cs n frag q h with h2 | h2
        · exact Or.inl (by simp [nidsOf, h2])
        · exact Or.inr h2

theorem appendChildrenAtL_nids_sub (l : List DomNode) (n : Nat) (frag : List DomNode) (q : Nat)
    (h : q ∈ nidsOfL (appendChildrenAtL l n frag)) : q ∈ nidsOfL l ∨ q ∈ nidsOfL frag := by
  cases l with
  | nil => simp [appendChildrenAtL, nidsOfL] at h
  | cons c cs =>
    simp only [appendChildrenAtL, nidsOfL, List.mem_append] at h
    rcases h with h | h
    · rcases appendChildrenAt_nids_sub c n frag q h with h2 | h2
      · exact Or.inl (by simp [nidsOfL, h2])
      · exact Or.inr h2
    · rcases appendChildrenAtL_nids_sub cs n frag q h with h2 | h2
      · exact Or.inl (by simp [nidsOfL, h2])
      · exact Or.inr h2

end

mutual

theorem renumber_spec (t : DomNode) (k : Nat) :
    k ≤ (renumber t k).2
    ∧ (∀ q ∈ nidsOf (renumber t k).1, k ≤ q ∧ q < (renumber t k).2)
    ∧ (nidsOf (renumber t k).1).Nodup := by
  cases t with
  | text s => simp [renumber, nidsOf]
  | elem i tg a cs =>
    have hcs := renumberL_spec cs (k + 1)
    simp only [renumber, nidsOf]
    refine ⟨by omega, ?_, ?_⟩
    · intro q hq
      rcases List.mem_cons.mp hq with h | h
      · have h1 := hcs.1
        omega
      · have := hcs.2.1 q h
        omega
    · rw [List.nodup_cons]
      refine ⟨?_, hcs.2.2⟩
      intro hk
      have := hcs.2.1 k hk
      omega

theorem renumberL_spec (l : List DomNode) (k : Nat) :
    k ≤ (renumberL l k).2
    ∧ (∀ q ∈ nidsOfL (renumberL l k).1, k ≤ q ∧ q < (renumberL l k).2)
    ∧ (nidsOfL (renumberL l k).1).Nodup := by
  cases l with
  | nil => simp [renumberL, nidsOfL]
  | cons c cs =>
    have hc := renumber_spec c k
    have hcs := renumberL_spec cs (renumber c k).2
    simp only [renumberL, nidsOfL]
    refine ⟨by omega, ?_, ?_⟩
    · intro q hq
      rcases List.mem_append.mp hq with h | h
      · have := hc.2.1 q h
        omega
      · have := hcs.2.1 q h
        omega
    · rw [List.nodup_append]
      refine ⟨hc.2.2, hcs.2.2, ?_⟩
      intro q hq1 hq2
      have h1 := hc.2.1 q hq1
      have h2 := hcs.2.1 q hq2
      omega

end

mutual

theorem updateAttrsAt_absent (t : DomNode) (n : Nat)
    (g : List (String × String) → List (String × String))
    (h : n ∉ nidsOf t) : updateAttrsAt t n g = t := by
  cases t with
  | text s => simp [updateAttrsAt]
  | elem i tg a cs =>
    have hin : i ≠ n := by
      intro hcontra
      exact h (by simp [nidsOf, hcontra])
    have hcs : n ∉ nidsOfL cs := fun hc => h (by simp [nidsOf, hc])
    simp [updateAttrsAt, hin, updateAttrsAtL_absent cs n g hcs]

theorem updateAttrsAtL_absent (l : List DomNode) (n : Nat)
    (g : List (String × String) → List (String × String))
    (h : n ∉ nidsOfL l) : updateAttrsAtL l n g = l := by
  cases l with
  | nil => simp [updateAttrsAtL]
  | cons c cs =>
    have hc : n ∉ nidsOf c := fun hx => h (by simp [nidsOfL, hx])
    have hcs : n ∉ nidsOfL cs := fun hx => h (by simp [nidsOfL, hx])
    simp [updateAttrsAtL, updateAttrsAt_absent c n g hc, updateAttrsAtL_absent cs n g hcs]

end

/-- Elements absent from a list of trees are not found by lookup. -/
theorem getSubtreeL_eq_none_of_not_mem {l : List DomNode} {p : Nat} (h : p ∉ nidsOfL l) :
    getSubtreeL l p = none := (getSubtreeL_none_iff l p).mpr h

theorem hasNid_eq_false_iff (t : DomNode) (n : Nat) :
    hasNid t n = false ↔ n ∉ nidsOf t := by
  simp [hasNid]

theorem getSubtree_elem_ne {i p : Nat} (h : i ≠ p) (tg : String)
    (a : List (String × String)) (cs : List DomNode) :
    getSubtree (.elem i tg a cs) p = getSubtreeL cs p := by
  simp [getSubtree, h]

theorem getSubtree_elem_self (i : Nat) (tg : String)
    (a : List (String × String)) (cs : List DomNode) :
    getSubtree (.elem i tg a cs) i = some (.elem i tg a cs) := by
  simp [getSubtree]

theorem getSubtreeL_cons_some {c : DomNode} {p : Nat} {r : DomNode} (cs : List DomNode)
    (h : getSubtree c p = some r) : getSubtreeL (c :: cs) p = some r := by
  simp [getSubtreeL, h]

theorem getSubtreeL_cons_none {c : DomNode} {p : Nat} (cs : List DomNode)
    (h : getSubtree c p = none) : getSubtreeL (c :: cs) p = getSubtreeL cs p := by
  simp [getSubtreeL, h]

theorem getSubtreeL_append_left {xs : List DomNode} {p : Nat} {r : DomNode} (ys : List DomNode)
    (h : getSubtreeL xs p = some r) : getSubtreeL (xs ++ ys) p = some r := by
  rw [getSubtreeL_append, h]
  rfl

theorem getSubtreeL_append_right {xs : List DomNode} {p : Nat} (ys : List DomNode)
    (h : getSubtreeL xs p = none) : getSubtreeL (xs ++ ys) p = getSubtreeL ys p := by
  rw [getSubtreeL_append, h]
  rfl

mutual

theorem replaceChildrenAt_stable (t : DomNode) (el : Nat) (new : List DomNode) (p : Nat)
    (hnd : (nidsOf t).Nodup) (hfresh : p ∉ nidsOfL new) :
    (∀ tp, getSubtree t p = some tp → hasNid tp el = false →
      getSubtreeL ((replaceChildrenAt t el new).1 :: (replaceChildrenAt t el new).2) p = some tp)
    ∧ (getSubtree t p = none →
      getSubtreeL ((replaceChildrenAt t el new).1 :: (replaceChildrenAt t el new).2) p = none) := by
  cases t with
  | text s =>
    constructor
    · intro tp hs
      simp [getSubtree] at hs
    · intro _
      simp [replaceChildrenAt, getSubtreeL, getSubtree]
  | elem i tg a cs =>
    have hndcs : (nidsOfL cs).Nodup := by
      simp only [nidsOf, List.nodup_cons] at hnd
      exact hnd.2
    by_cases hiel : i = el
    · subst hiel
      simp only [replaceChildrenAt, if_pos rfl, if_true]
      constructor
      · intro tp hs hel
        by_cases hip : i = p
        · subst hip
          rw [getSubtree_elem_self] at hs
          cases hs
          rw [hasNid_eq_false_iff] at hel
          exact absurd (by simp [nidsOf] : i ∈ nidsOf (.elem i tg a cs)) hel
        · rw [getSubtree_elem_ne hip] at hs
          rw [getSubtreeL_cons_none cs (by
            rw [getSubtree_none_iff]
            simp only [nidsOf, List.mem_cons, not_or]
            exact ⟨fun hx => hip hx.symm, hfresh⟩)]
          exact hs
      · intro hn
        rw [getSubtree_none_iff] at hn
        have hip : i ≠ p := fun hx => hn (by simp [nidsOf, hx])
        have hcs : p ∉ nidsOfL cs := fun hx => hn (by simp [nidsOf, hx])
        rw [getSubtreeL_cons_none cs (by
          rw [getSubtree_none_iff]
          simp only [nidsOf, List.mem_cons, not_or]
          exact ⟨fun hx => hip hx.symm, hfresh⟩)]
        exact getSubtreeL_eq_none_of_not_mem hcs
    · simp only [replaceChildrenAt, if_neg hiel]
      have hl := replaceChildrenAtL_stable cs el new p hndcs hfresh
      constructor
      · intro tp hs hel
        by_cases hip : i = p
        · subst hip
          rw [getSubtree_elem_self] at hs
          cases hs
          rw [hasNid_eq_false_iff] at hel
          have helcs : el ∉ nidsOfL cs := by
            simp only [nidsOf, List.mem_cons, not_or] at hel
            exact hel.2
          rw [replaceChildrenAtL_absent cs el new helcs]
          exact getSubtreeL_cons_some [] (getSubtree_elem_self i tg a cs)
        · rw [getSubtree_elem_ne hip] at hs
          have h2 := hl.1 tp hs hel
          cases hfst : getSubtreeL (replaceChildrenAtL cs el new).1 p with
          | some r =>
            rw [getSubtreeL_append_left _ hfst] at h2
            cases h2
            exact getSubtreeL_cons_some _ (by rw [getSubtree_elem_ne hip]; exact hfst)
          | none =>
            rw [getSubtreeL_append_right _ hfst] at h2
            rw [getSubtreeL_cons_none _ (by rw [getSubtree_elem_ne hip]; exact hfst)]
            exact h2
      · intro hn
        rw [getSubtree_none_iff] at hn
        have hip : i ≠ p := fun hx => hn (by simp [nidsOf, hx])
        have hcs : p ∉ nidsOfL cs := fun hx => hn (by simp [nidsOf, hx])
        have h2 := hl.2 (getSubtreeL_eq_none_of_not_mem hcs)
        cases hfst : getSubtreeL (replaceChildrenAtL cs el new).1 p with
        | some r =>
          rw [getSubtreeL_append_left _ hfst] at h2
          cases h2
        | none =>
          rw [getSubtreeL_append_right _ hfst] at h2
          rw [getSubtreeL_cons_none _ (by rw [getSubtree_elem_ne hip]; exact hfst)]
          exact h2

theorem replaceChildrenAtL_stable (l : List DomNode) (el : Nat) (new : List DomNode) (p : Nat)
    (hnd : (nidsOfL l).Nodup) (hfresh : p ∉ nidsOfL new) :
    (∀ tp, getSubtreeL l p = some tp → hasNid tp el = false →
      getSubtreeL ((replaceChildrenAtL l el new).1 ++ (replaceChildrenAtL l el new).2) p = some tp)
    ∧ (getSubtreeL l p = none →
      getSubtreeL ((replaceChildrenAtL l el new).1 ++ (replaceChildrenAtL l el new).2) p = none) := by
  cases l with
  | nil =>
    constructor
    · intro tp hs
      simp [getSubtreeL] at hs
    · intro _
      simp [replaceChildrenAtL, getSubtreeL]
  | cons c cs =>
    have hsplit := List.nodup_append.mp (by simpa [nidsOfL] using hnd)
    have hc := replaceChildrenAt_stable c el new p hsplit.1 hfresh
    have hcs := replaceChildrenAtL_stable cs el new p hsplit.2.1 hfresh
    simp only [replaceChildrenAtL, List.cons_append]
    constructor
    · intro tp hs hel
      cases hcp : getSubtree c p with
      | some r =>
        rw [getSubtreeL_cons_some cs hcp] at hs
        cases hs
        have h2 := hc.1 tp hcp hel
        have hpmem : p ∈ nidsOf c := by
          by_contra hx
          rw [← getSubtree_none_iff] at hx
          rw [hcp] at hx
          cases hx
        have hpcs : p ∉ nidsOfL cs := fun hx => hsplit.2.2 hpmem hx
        have hrcs1 : p ∉ nidsOfL (replaceChildrenAtL cs el new).1 := by
          intro hx
          rcases replaceChildrenAtL_fst_nids cs el new p hx with h3 | h3
          · exact hpcs h3
          · exact hfresh h3
        have hrcs2 : p ∉ nidsOfL (replaceChildrenAtL cs el new).2 := by
          intro hx
          exact hpcs (replaceChildrenAtL_snd_nids cs el new p hx)
        cases hc1 : getSubtree (replaceChildrenAt c el new).1 p with
        | some r2 =>
          rw [getSubtreeL_cons_some _ hc1] at h2
          cases h2
          rw [getSubtreeL_cons_some _ hc1]
        | none =>
          rw [getSubtreeL_cons_none _ hc1] at h2
          rw [getSubtreeL_cons_none _ hc1]
          rw [getSubtreeL_append_right _ (getSubtreeL_eq_none_of_not_mem hrcs1)]
          rw [getSubtreeL_append_left _ h2]
      | none =>
        rw [getSubtreeL_cons_none cs hcp] at hs
        have hnone := hc.2 hcp
        have h2 := hcs.1 tp hs hel
        cases hc1 : getSubtree (replaceChildrenAt c el new).1 p with
        | some r2 =>
          rw [getSubtreeL_cons_some _ hc1] at hnone
          cases hnone
        | none =>
          rw [getSubtreeL_cons_none _ hc1] at hnone
          rw [getSubtreeL_cons_none _ hc1]
          cases hcs1 : getSubtreeL (replaceChildrenAtL cs el new).1 p with
          | some r3 =>
            rw [getSubtreeL_append_left _ hcs1] at h2
            cases h2
            rw [getSubtreeL_append_left _ hcs1]
          | none =>
            rw [getSubtreeL_append_right _ hcs1] at h2
            rw [getSubtreeL_append_right _ hcs1]
            rw [getSubtreeL_append_right _ hnone]
            exact h2
    · intro hn
      cases hcp : getSubtree c p with
      | some r =>
        rw [getSubtreeL_cons_some cs hcp] at hn
        cases hn
      | none =>
        rw [getSubtreeL_cons_none cs hcp] at hn
        have hnone := hc.2 hcp
        have h2 := hcs.2 hn
        cases hc1 : getSubtree (replaceChildrenAt c el new).1 p with
        | some r2 =>
          rw [getSubtreeL_cons_some _ hc1] at hnone
          cases hnone
        | none =>
          rw [getSubtreeL_cons_none _ hc1] at hnone
          rw [getSubtreeL_cons_none _ hc1]
          cases hcs1 : getSubtreeL (replaceChildrenAtL cs el new).1 p with
          | some r3 =>
            rw [getSubtreeL_append_left _ hcs1] at h2
            cases h2
          | none =>
            rw [getSubtreeL_append_right _ hcs1] at h2
            rw [getSubtreeL_append_right _ hcs1]
            rw [getSubtreeL_append_right _ hnone]
            exact h2

end

mutual

theorem appendChildrenAt_stable (t : DomNode) (el : Nat) (frag : List DomNode) (p : Nat)
    (hfresh : p ∉ nidsOfL frag) :
    (∀ tp, getSubtree t p = some tp → hasNid tp el = false →
      getSubtree (appendChildrenAt t el frag) p = some tp)
    ∧ (getSubtree t p = none → getSubtree (appendChildrenAt t el frag) p = none) := by
  cases t with
  | text s =>
    constructor
    · intro tp hs
      simp [getSubtree] at hs
    · intro _
      simp [appendChildrenAt, getSubtree]
  | elem i tg a cs =>
    by_cases hiel : i = el
    · subst hiel
      simp only [appendChildrenAt, if_pos rfl, if_true]
      constructor
      · intro tp hs hel
        by_cases hip : i = p
        · subst hip
          rw [getSubtree_elem_self] at hs
          cases hs
          rw [hasNid_eq_false_iff] at hel
          exact absurd (by simp [nidsOf] : i ∈ nidsOf (.elem i tg a cs)) hel
        · rw [getSubtree_elem_ne hip] at hs
          rw [getSubtree_elem_ne hip]
          exact getSubtreeL_append_left _ hs
      · intro hn
        rw [getSubtree_none_iff] at hn
        have hip : i ≠ p := fun hx => hn (by simp [nidsOf, hx])
        have hcs : p ∉ nidsOfL cs := fun hx => hn (by simp [nidsOf, hx])
        rw [getSubtree_elem_ne hip]
        rw [getSubtreeL_append_right _ (getSubtreeL_eq_none_of_not_mem hcs)]
        exact getSubtreeL_eq_none_of_not_mem hfresh
    · simp only [appendChildrenAt, if_neg hiel]
      have hl := appendChildrenAtL_stable cs el frag p hfresh
      constructor
      · intro tp hs hel
        by_cases hip : i = p
        · subst hip
          rw [getSubtree_elem_self] at hs
          cases hs
          rw [hasNid_eq_false_iff] at hel
          have helcs : el ∉ nidsOfL cs := by
            simp only [nidsOf, List.mem_cons, not_or] at hel
            exact hel.2
          rw [appendChildrenAtL_absent cs el frag helcs]
          exact getSubtree_elem_self i tg a cs
        · rw [getSubtree_elem_ne hip] at hs
          rw [getSubtree_elem_ne hip]
          exact hl.1 tp hs hel
      · intro hn
        rw [getSubtree_none_iff] at hn
        have hip : i ≠ p := fun hx => hn (by simp [nidsOf, hx])
        have hcs : p ∉ nidsOfL cs := fun hx => hn (by simp [nidsOf, hx])
        rw [getSubtree_elem_ne hip]
        exact hl.2 (getSubtreeL_eq_none_of_not_mem hcs)

theorem appendChildrenAtL_stable (l : List DomNode) (el : Nat) (frag : List DomNode) (p : Nat)
    (hfresh : p ∉ nidsOfL frag) :
    (∀ tp, getSubtreeL l p = some tp → hasNid tp el = false →
      getSubtreeL (appendChildrenAtL l el frag) p = some tp)
    ∧ (getSubtreeL l p = none → getSubtreeL (appendChildrenAtL l el frag) p = none) := by
  cases l with
  | nil =>
    constructor
    · intro tp hs
      simp [getSubtreeL] at hs
    · intro _
      simp [appendChildrenAtL, getSubtreeL]
  | cons c cs =>
    have hc := appendChildrenAt_stable c el frag p hfresh
    have hcs := appendChildrenAtL_stable cs el frag p hfresh
    simp only [appendChildrenAtL]
    constructor
    · intro tp hs hel
      cases hcp : getSubtree c p with
      | some r =>
        rw [getSubtreeL_cons_some cs hcp] at hs
        cases hs
        exact getSubtreeL_cons_some _ (hc.1 tp hcp hel)
      | none =>
        rw [getSubtreeL_cons_none cs hcp] at hs
        rw [getSubtreeL_cons_none _ (hc.2 hcp)]
        exact hcs.1 tp hs hel
    · intro hn
      cases hcp : getSubtree c p with
      | some r =>
        rw [getSubtreeL_cons_some cs hcp] at hn
        cases hn
      | none =>
        rw [getSubtreeL_cons_none cs hcp] at hn
        rw [getSubtreeL_cons_none _ (hc.2 hcp)]
        exact hcs.2 hn

end

mutual

theorem updateAttrsAt_stable (t : DomNode) (el : Nat)
    (g : List (String × String) → List (String × String)) (p : Nat) :
    (∀ tp, getSubtree t p = some tp → hasNid tp el = false →
      getSubtree (updateAttrsAt t el g) p = some tp)
    ∧ (getSubtree t p = none → getSubtree (updateAttrsAt t el g) p = none) := by
  cases t with
  | text s =>
    constructor
    · intro tp hs
      simp [getSubtree] at hs
    · intro _
      simp [updateAttrsAt, getSubtree]
  | elem i tg a cs =>
    by_cases hiel : i = el
    · subst hiel
      simp only [updateAttrsAt, if_pos rfl, if_true]
      constructor
      · intro tp hs hel
        by_cases hip : i = p
        · subst hip
          rw [getSubtree_elem_self] at hs
          cases hs
          rw [hasNid_eq_false_iff] at hel
          exact absurd (by simp [nidsOf] : i ∈ nidsOf (.elem i tg a cs)) hel
        · rw [getSubtree_elem_ne hip] at hs
          rw [getSubtree_elem_ne hip]
          exact hs
      · intro hn
        rw [getSubtree_none_iff] at hn
        have hip : i ≠ p := fun hx => hn (by simp [nidsOf, hx])
        have hcs : p ∉ nidsOfL cs := fun hx => hn (by simp [nidsOf, hx])
        rw [getSubtree_elem_ne hip]
        exact getSubtreeL_eq_none_of_not_mem hcs
    · simp only [updateAttrsAt, if_neg hiel]
      have hl := updateAttrsAtL_stable cs el g p
      constructor
      · intro tp hs hel
        by_cases hip : i = p
        · subst hip
          rw [getSubtree_elem_self] at hs
          cases hs
          rw [hasNid_eq_false_iff] at hel
          have helcs : el ∉ nidsOfL cs := by
            simp only [nidsOf, List.mem_cons, not_or] at hel
            exact hel.2
          rw [updateAttrsAtL_absent cs el g helcs]
          exact getSubtree_elem_self i tg a cs
        · rw [getSubtree_elem_ne hip] at hs
          rw [getSubtree_elem_ne hip]
          exact hl.1 tp hs hel
      · intro hn
        rw [getSubtree_none_iff] at hn
        have hip : i ≠ p := fun hx => hn (by simp [nidsOf, hx])
        have hcs : p ∉ nidsOfL cs := fun hx => hn (by simp [nidsOf, hx])
        rw [getSubtree_elem_ne hip]
        exact hl.2 (getSubtreeL_eq_none_of_not_mem hcs)

theorem updateAttrsAtL_stable (l : List DomNode) (el : Nat)
    (g : List (String × String) → List (String × String)) (p : Nat) :
    (∀ tp, getSubtreeL l p = some tp → hasNid tp el = false →
      getSubtreeL (updateAttrsAtL l el g) p = some tp)
    ∧ (getSubtreeL l p = none → getSubtreeL (updateAttrsAtL l el g) p = none) := by
  cases l with
  | nil =>
    constructor
    · intro tp hs
      simp [getSubtreeL] at hs
    · intro _
      simp [updateAttrsAtL, getSubtreeL]
  | cons c cs =>
    have hc := updateAttrsAt_stable c el g p
    have hcs := updateAttrsAtL_stable cs el g p
    simp only [updateAttrsAtL]
    constructor
    · intro tp hs hel
      cases hcp : getSubtree c p with
      | some r =>
        rw [getSubtreeL_cons_some cs hcp] at hs
        cases hs
        exact getSubtreeL_cons_some _ (hc.1 tp hcp hel)
      | none =>
        rw [getSubtreeL_cons_none cs hcp] at hs
        rw [getSubtreeL_cons_none _ (hc.2 hcp)]
        exact hcs.1 tp hs hel
    · intro hn
      cases hcp : getSubtree c p with
      | some r =>
        rw [getSubtreeL_cons_some cs hcp] at hn
        cases hn
      | none =>
        rw [getSubtreeL_cons_none cs hcp] at hn
        rw [getSubtreeL_cons_none _ (hc.2 hcp)]
        exact hcs.2 hn

end

/-- The queried containment of `inProtected` only looks at the subtrees of
the protected identities, so it is invariant when those subtrees are. -/
theorem inProtected_congr {f f' : List DomNode} {protIds : List Nat}
    (h : ∀ p ∈ protIds, getSubtreeF f' p = getSubtreeF f p) (n : Nat) :
    inProtected f' protIds n = inProtected f protIds n := by
  induction protIds with
  | nil => rfl
  | cons p ps ih =>
    simp only [inProtected, List.any_cons]
    rw [show getSubtreeF f' p = getSubtreeF f p from h p (List.mem_cons_self p ps)]
    have ih2 := ih (fun q hq => h q (List.mem_cons_of_mem p hq))
    simp only [inProtected] at ih2
    rw [ih2]

theorem mem_of_getSubtreeF_some {f : List DomNode} {p : Nat} {t : DomNode}
    (h : getSubtreeF f p = some t) : p ∈ nidsOfL f := getSubtreeL_some_mem h

theorem getSubtreeF_some_of_mem {f : List DomNode} {p : Nat} (h : p ∈ nidsOfL f) :
    ∃ t, getSubtreeF f p = some t := by
  cases hx : getSubtreeF f p with
  | some t => exact ⟨t, rfl⟩
  | none => exact absurd ((getSubtreeL_none_iff f p).mp hx) (by simp [h])

/-- The per-protected-node facts packed by a false `inProtected` check. -/
theorem inProtected_false_spec {f : List DomNode} {protIds : List Nat} {el : Nat}
    (h : inProtected f protIds el = false) :
    ∀ p ∈ protIds, ∀ t, getSubtreeF f p = some t → hasNid t el = false := by
  intro p hp t ht
  simp only [inProtected, List.any_eq_false] at h
  have h2 := h p hp
  rw [ht] at h2
  simpa using h2

/-- One `replaceChildrenF` mutation at an unprotected element: preserves
forest well-formedness and every protected subtree. -/
theorem replaceF_step (f : List DomNode) (protIds : List Nat) (el : Nat)
    (new : List DomNode) (nextId nextId' : Nat)
    (hnd : (nidsOfL f).Nodup) (hbound : ∀ n ∈ nidsOfL f, n < nextId)
    (hnewnd : (nidsOfL new).Nodup)
    (hnewrange : ∀ q ∈ nidsOfL new, nextId ≤ q ∧ q < nextId')
    (hle : nextId ≤ nextId')
    (hguard : inProtected f protIds el = false)
    (hprot : ∀ p ∈ protIds, p ∈ nidsOfL f) :
    (nidsOfL (replaceChildrenF f el new)).Nodup
    ∧ (∀ n ∈ nidsOfL (replaceChildrenF f el new), n < nextId')
    ∧ (∀ p ∈ protIds, getSubtreeF (replaceChildrenF f el new) p = getSubtreeF f p) := by
  have hnidseq : nidsOfL (replaceChildrenF f el new) =
      nidsOfL (replaceChildrenAtL f el new).1 ++ nidsOfL (replaceChildrenAtL f el new).2 := by
    simp [replaceChildrenF, nidsOfL_append]
  refine ⟨?_, ?_, ?_⟩
  · rw [hnidseq]
    by_cases hmem : el ∈ nidsOfL f
    · have hperm := replaceChildrenAtL_nids_perm f el new hnd hmem
      rw [hperm.nodup_iff]
      rw [List.nodup_append]
      refine ⟨hnd, hnewnd, ?_⟩
      intro q hq1 hq2
      have := hbound q hq1
      have := (hnewrange q hq2).1
      omega
    · rw [replaceChildrenAtL_absent f el new hmem]
      simpa [nidsOfL] using hnd
  · rw [hnidseq]
    intro n hn
    rcases List.mem_append.mp hn with h | h
    · rcases replaceChildrenAtL_fst_nids f el new n h with h2 | h2
      · have := hbound n h2
        omega
      · exact (hnewrange n h2).2
    · have h2 := replaceChildrenAtL_snd_nids f el new n h
      have := hbound n h2
      omega
  · intro p hp
    obtain ⟨t, hsub⟩ := getSubtreeF_some_of_mem (hprot p hp)
    have hel := inProtected_false_spec hguard p hp t hsub
    have hfresh : p ∉ nidsOfL new := by
      intro hx
      have := (hnewrange p hx).1
      have := hbound p (mem_of_getSubtreeF_some hsub)
      omega
    rw [hsub]
    exact (replaceChildrenAtL_stable f el new p hnd hfresh).1 t hsub hel

/-- One `appendChildrenF` mutation at an unprotected element. -/
theorem appendF_step (f : List DomNode) (protIds : List Nat) (el : Nat)
    (frag : List DomNode) (nextId nextId' : Nat)
    (hnd : (nidsOfL f).Nodup) (hbound : ∀ n ∈ nidsOfL f, n < nextId)
    (hfragnd : (nidsOfL frag).Nodup)
    (hfragrange : ∀ q ∈ nidsOfL frag, nextId ≤ q ∧ q < nextId')
    (hle : nextId ≤ nextId')
    (hguard : inProtected f protIds el = false)
    (hprot : ∀ p ∈ protIds, p ∈ nidsOfL f) :
    (nidsOfL (appendChildrenF f el frag)).Nodup
    ∧ (∀ n ∈ nidsOfL (appendChildrenF f el frag), n < nextId')
    ∧ (∀ p ∈ protIds, getSubtreeF (appendChildrenF f el frag) p = getSubtreeF f p) := by
  refine ⟨?_, ?_, ?_⟩
  · by_cases hmem : el ∈ nidsOfL f
    · have hperm := appendChildrenAtL_nids_perm f el frag hnd hmem
      rw [show appendChildrenF f el frag = appendChildrenAtL f el frag from rfl]
      rw [hperm.nodup_iff]
      rw [List.nodup_append]
      refine ⟨hnd, hfragnd, ?_⟩
      intro q hq1 hq2
      have := hbound q hq1
      have := (hfragrange q hq2).1
      omega
    · rw [show appendChildrenF f el frag = appendChildrenAtL f el frag from rfl,
        appendChildrenAtL_absent f el frag hmem]
      exact hnd
  · intro n hn
    rcases appendChildrenAtL_nids_sub f el frag n hn with h | h
    · have := hbound n h
      omega
    · exact (hfragrange n h).2
  · intro p hp
    obtain ⟨t, hsub⟩ := getSubtreeF_some_of_mem (hprot p hp)
    have hel := inProtected_false_spec hguard p hp t hsub
    have hfresh : p ∉ nidsOfL frag := by
      intro hx
      have := (hfragrange p hx).1
      have := hbound p (mem_of_getSubtreeF_some hsub)
      omega
    rw [hsub]
    exact (appendChildrenAtL_stable f el frag p hfresh).1 t hsub hel

/-- One `updateAttrsF` mutation at an unprotected element. -/
theorem updF_step (f : List DomNode) (protIds : List Nat) (el : Nat)
    (g : List (String × String) → List (String × String)) (nextId : Nat)
    (hnd : (nidsOfL f).Nodup) (hbound : ∀ n ∈ nidsOfL f, n < nextId)
    (hguard : inProtected f protIds el = false)
    (hprot : ∀ p ∈ protIds, p ∈ nidsOfL f) :
    (nidsOfL (updateAttrsF f el g)).Nodup
    ∧ (∀ n ∈ nidsOfL (updateAttrsF f el g), n < nextId)
    ∧ (∀ p ∈ protIds, getSubtreeF (updateAttrsF f el g) p = getSubtreeF f p) := by
  have heq : nidsOfL (updateAttrsF f el g) = nidsOfL f := updateAttrsAtL_nids f el g
  refine ⟨by rw [heq]; exact hnd, by rw [heq]; exact hbound, ?_⟩
  intro p hp
  obtain ⟨t, hsub⟩ := getSubtreeF_some_of_mem (hprot p hp)
  have hel := inProtected_false_spec hguard p hp t hsub
  rw [hsub]
  exact (updateAttrsAtL_stable f el g p).1 t hsub hel

theorem bool_eq_false {b : Bool} (h : ¬ b = true) : b = false := by
  cases b with
  | false => rfl
  | true => exact absurd rfl h

/-- Compose one counted mutation step (new forest `F`, new css `C`, next
fresh identity `N`, log entry `A`, event `E` at an unprotected element)
with the induction hypothesis for the remaining candidates, stated on the
successor state directly. -/
theorem protect_compose (protIds : List Nat) (st st' : EngineState)
    (F : List DomNode) (C : String) (N : Nat) (A : Applied) (E : Nat × String)
    (hstep : (nidsOfL F).Nodup ∧ (∀ n ∈ nidsOfL F, n < N)
      ∧ (∀ p ∈ protIds, getSubtreeF F p = getSubtreeF st.forest p))
    (hguard : inProtected st.forest protIds E.1 = false)
    (hI : (nidsOfL st.forest).Nodup ∧ (∀ n ∈ nidsOfL st.forest, n < st.nextId)
      ∧ (∀ p ∈ protIds, p ∈ nidsOfL st.forest)
      ∧ (∀ e ∈ st.events, inProtected st.forest protIds e.1 = false)
      ∧ st.applied.length = st.events.length ∧ st.changed = st.events.length)
    (ih : ∀ st₃ : EngineState, (Except.ok st' : Except String EngineState) = Except.ok st₃ →
      ((nidsOfL (⟨F, C, st.changed + 1, st.applied ++ [A], st.seen, N,
          st.events ++ [E]⟩ : EngineState).forest).Nodup
        ∧ (∀ n ∈ nidsOfL (⟨F, C, st.changed + 1, st.applied ++ [A], st.seen, N,
            st.events ++ [E]⟩ : EngineState).forest, n <
            (⟨F, C, st.changed + 1, st.applied ++ [A], st.seen, N,
              st.events ++ [E]⟩ : EngineState).nextId)
        ∧ (∀ p ∈ protIds, p ∈ nidsOfL (⟨F, C, st.changed + 1, st.applied ++ [A], st.seen, N,
            st.events ++ [E]⟩ : EngineState).forest)
        ∧ (∀ e ∈ (⟨F, C, st.changed + 1, st.applied ++ [A], st.seen, N,
            st.events ++ [E]⟩ : EngineState).events,
            inProtected (⟨F, C, st.changed + 1, st.applied ++ [A], st.seen, N,
              st.events ++ [E]⟩ : EngineState).forest protIds e.1 = false)
        ∧ (⟨F, C, st.changed + 1, st.applied ++ [A], st.seen, N,
            st.events ++ [E]⟩ : EngineState).applied.length =
            (⟨F, C, st.changed + 1, st.applied ++ [A], st.seen, N,
              st.events ++ [E]⟩ : EngineState).events.length
        ∧ (⟨F, C, st.changed + 1, st.applied ++ [A], st.seen, N,
            st.events ++ [E]⟩ : EngineState).changed =
            (⟨F, C, st.changed + 1, st.applied ++ [A], st.seen, N,
              st.events ++ [E]⟩ : EngineState).events.length) →
      (((nidsOfL st₃.forest).Nodup
        ∧ (∀ n ∈ nidsOfL st₃.forest, n < st₃.nextId)
        ∧ (∀ p ∈ protIds, p ∈ nidsOfL st₃.forest)
        ∧ (∀ e ∈ st₃.events, inProtected st₃.forest protIds e.1 = false)
        ∧ st₃.applied.length = st₃.events.length ∧ st₃.changed = st₃.events.length)
        ∧ ∀ p ∈ protIds, getSubtreeF st₃.forest p =
            getSubtreeF (⟨F, C, st.changed + 1, st.applied ++ [A], st.seen, N,
              st.events ++ [E]⟩ : EngineState).forest p)) :
    (((nidsOfL st'.forest).Nodup
      ∧ (∀ n ∈ nidsOfL st'.forest, n < st'.nextId)
      ∧ (∀ p ∈ protIds, p ∈ nidsOfL st'.forest)
      ∧ (∀ e ∈ st'.events, inProtected st'.forest protIds e.1 = false)
      ∧ st'.applied.length = st'.events.length ∧ st'.changed = st'.events.length)
      ∧ ∀ p ∈ protIds, getSubtreeF st'.forest p = getSubtreeF st.forest p) := by
  obtain ⟨hnd, hbound, hmemP, hev, hlen1, hlen2⟩ := hI
  have hIS : (nidsOfL F).Nodup ∧ (∀ n ∈ nidsOfL F, n < N)
      ∧ (∀ p ∈ protIds, p ∈ nidsOfL F)
      ∧ (∀ e ∈ st.events ++ [E], inProtected F protIds e.1 = false)
      ∧ (st.applied ++ [A]).length = (st.events ++ [E]).length
      ∧ st.changed + 1 = (st.events ++ [E]).length := by
    refine ⟨hstep.1, hstep.2.1, ?_, ?_, ?_, ?_⟩
    · intro p hp
      obtain ⟨t, hsub⟩ := getSubtreeF_some_of_mem (hmemP p hp)
      exact mem_of_getSubtreeF_some (((hstep.2.2 p hp).trans hsub))
    · intro e he
      rw [inProtected_congr hstep.2.2]
      rcases List.mem_append.mp he with h2 | h2
      · exact hev e h2
      · rw [List.mem_singleton.mp h2]
        exact hguard
    · simp [hlen1]
    · simp [hlen2]
  obtain ⟨hI3, hstab3⟩ := ih st' rfl hIS
  exact ⟨hI3, fun p hp => (hstab3 p hp).trans (hstep.2.2 p hp)⟩

/-- The replacement fragment of `replace_text` carries no element
identities. -/
theorem nidsOfL_textOpt (c : Prop) [Decidable c] (s : String) :
    nidsOfL (if c then [] else [DomNode.text s]) = [] := by
  split <;> simp [nidsOfL, nidsOf]

/-- Candidate-loop invariant: a successful `runCandidates` pass keeps the
forest identities distinct and bounded by the fresh counter, keeps every
protected identity present, records every counted mutation as an event at
an element outside every protected subtree, keeps one applied entry per
event — and preserves every protected subtree verbatim. -/
theorem runCandidates_protect (protIds safeRoots : List Nat) (maxOps : Int) (op : Op) :
    ∀ (cands : List Nat) (st : EngineState), ∀ (st' : EngineState),
      runCandidates protIds safeRoots maxOps op cands st = .ok st' →
      ((nidsOfL st.forest).Nodup ∧ (∀ n ∈ nidsOfL st.forest, n < st.nextId)
        ∧ (∀ p ∈ protIds, p ∈ nidsOfL st.forest)
        ∧ (∀ e ∈ st.events, inProtected st.forest protIds e.1 = false)
        ∧ st.applied.length = st.events.length ∧ st.changed = st.events.length) →
      (((nidsOfL st'.forest).Nodup
        ∧ (∀ n ∈ nidsOfL st'.forest, n < st'.nextId)
        ∧ (∀ p ∈ protIds, p ∈ nidsOfL st'.forest)
        ∧ (∀ e ∈ st'.events, inProtected st'.forest protIds e.1 = false)
        ∧ st'.applied.length = st'.events.length ∧ st'.changed = st'.events.length)
        ∧ ∀ p ∈ protIds, getSubtreeF st'.forest p = getSubtreeF st.forest p) := by
  intro cands st
  induction cands, st using runCandidates.induct protIds safeRoots maxOps op
  all_goals intro st' h
  all_goals simp only [runCandidates, *, String.reduceEq, reduceIte, Bool.false_eq_true,
    if_true, if_false] at h
  all_goals try (simp only [*] at *)
  all_goals intro hI
  all_goals try (cases h; exact ⟨hI, fun p hp => rfl⟩)
  all_goals try (cases h)
  all_goals try (rename_i ih; exact ih st' rfl hI)
  case case4 =>
    rename_i ih
    refine protect_compose protIds _ st' _ "" _ _ _ ?_ (bool_eq_false (by assumption)) hI ih
    exact replaceF_step _ protIds _ _ _ _ hI.1 hI.2.1
      (by rw [nidsOfL_textOpt]; exact List.nodup_nil)
      (by rw [nidsOfL_textOpt]; intro q hq; cases hq)
      (le_refl _) (bool_eq_false (by assumption)) hI.2.2.1
  case case6 =>
    rename_i ih
    refine protect_compose protIds _ st' _ "" _ _ _ ?_ (bool_eq_false (by assumption)) hI ih
    exact appendF_step _ protIds _ _ _ _ hI.1 hI.2.1
      (renumberL_spec _ _).2.2
      (renumberL_spec _ _).2.1
      (renumberL_spec _ _).1 (bool_eq_false (by assumption)) hI.2.2.1
  case case9 =>
    rename_i ih
    refine protect_compose protIds _ st' _ "" _ _ _ ?_ (bool_eq_false (by assumption)) hI ih
    exact replaceF_step _ protIds _ _ _ _ hI.1 hI.2.1
      (renumberL_spec _ _).2.2
      (renumberL_spec _ _).2.1
      (renumberL_spec _ _).1 (bool_eq_false (by assumption)) hI.2.2.1
  case case14 =>
    rename_i ih
    refine protect_compose protIds _ st' _ "" _ _ _ ?_ (bool_eq_false (by assumption)) hI ih
    exact updF_step _ protIds _ _ _ hI.1 hI.2.1 (bool_eq_false (by assumption)) hI.2.2.1
  case case19 =>
    rename_i ih
    refine protect_compose protIds _ st' _ "" _ _ _ ?_ (bool_eq_false (by assumption)) hI ih
    exact updF_step _ protIds _ _ _ hI.1 hI.2.1 (bool_eq_false (by assumption)) hI.2.2.1
  case case23 =>
    rename_i ih
    refine protect_compose protIds _ st' _ "" _ _ _ ?_ (bool_eq_false (by assumption)) hI ih
    exact updF_step _ protIds _ _ _ hI.1 hI.2.1 (bool_eq_false (by assumption)) hI.2.2.1
  case case26 =>
    rename_i ih
    exact protect_compose protIds _ st' _ "" _ _ _ ⟨hI.1, hI.2.1, fun p hp => rfl⟩
      (bool_eq_false (by assumption)) hI ih



mutual

/-- A query hit is an identity of the queried tree. -/
theorem qsaNode_mem (selsRev : List SimpleSel) (scope : Option Nat) (inside : Bool)
    (chainRev : List (String × List (String × String))) (t : DomNode) :
    ∀ n ∈ qsaNode selsRev scope inside chainRev t, n ∈ nidsOf t := by
  cases t with
  | text s => simp [qsaNode]
  | elem i tg a cs =>
    intro n hn
    simp only [qsaNode, List.mem_append] at hn
    simp only [nidsOf, List.mem_cons]
    rcases hn with hn | hn
    · by_cases hc : ((inside || scope.isNone) && anchoredMatch selsRev ((tg, a) :: chainRev)) = true
      · rw [if_pos hc] at hn
        exact Or.inl (List.mem_singleton.mp hn)
      · rw [if_neg hc] at hn
        cases hn
    · exact Or.inr (qsaNodeL_mem selsRev scope (inside || decide (scope = some i))
        ((tg, a) :: chainRev) cs n hn)

/-- `qsaNode_mem` over sibling lists. -/
theorem qsaNodeL_mem (selsRev : List SimpleSel) (scope : Option Nat) (inside : Bool)
    (chainRev : List (String × List (String × String))) (l : List DomNode) :
    ∀ n ∈ qsaNodeL selsRev scope inside chainRev l, n ∈ nidsOfL l := by
  cases l with
  | nil => simp [qsaNodeL]
  | cons c cs =>
    intro n hn
    simp only [qsaNodeL, List.mem_append] at hn
    simp only [nidsOfL, List.mem_append]
    rcases hn with hn | hn
    · exact Or.inl (qsaNode_mem selsRev scope inside chainRev c n hn)
    · exact Or.inr (qsaNodeL_mem selsRev scope inside chainRev cs n hn)

end

/-- Document query hits live in the document. -/
theorem docQsa_mem (doc : DomNode) (sel : String) (ns : List Nat)
    (h : docQsa doc sel = some ns) : ∀ n ∈ ns, n ∈ nidsOf doc := by
  unfold docQsa at h
  cases hp : parseSelector sel with
  | none => rw [hp] at h; cases h
  | some ss =>
    rw [hp] at h
    cases h
    exact fun n hn => qsaNode_mem ss.reverse none true [] doc n hn

/-- A fold whose step keeps the accumulator inside the document keeps the
result inside the document. -/
theorem foldl_mem_preserved {α : Type} (doc : DomNode) (f : List Nat → α → List Nat)
    (hf : ∀ acc x, (∀ n ∈ acc, n ∈ nidsOf doc) → ∀ n ∈ f acc x, n ∈ nidsOf doc) :
    ∀ (l : List α) (acc : List Nat), (∀ n ∈ acc, n ∈ nidsOf doc) →
      ∀ n ∈ l.foldl f acc, n ∈ nidsOf doc := by
  intro l
  induction l with
  | nil =>
    intro acc hacc n hn
    rw [List.foldl_nil] at hn
    exact hacc n hn
  | cons x rest ih =>
    intro acc hacc n hn
    rw [List.foldl_cons] at hn
    exact ih (f acc x) (hf acc x hacc) n hn

/-- Every protected identity is an identity of the document. -/
theorem protectedNodeIds_mem (doc : DomNode) (sels : List String) :
    ∀ n ∈ protectedNodeIds doc sels, n ∈ nidsOf doc := by
  unfold protectedNodeIds
  refine foldl_mem_preserved doc _ ?_ _ [] (by intro n hn; cases hn)
  intro acc sel hacc m hm
  cases hq : docQsa doc sel with
  | none =>
    simp only [hq] at hm
    exact hacc m hm
  | some ns =>
    simp only [hq] at hm
    rcases List.mem_append.mp hm with h1 | h1
    · exact hacc m h1
    · exact docQsa_mem doc sel ns hq m (List.mem_filter.mp h1).1

/-- `foldl Nat.max` dominates the seed and every element. -/
theorem foldl_max_le (l : List Nat) :
    ∀ a : Nat, a ≤ l.foldl Nat.max a ∧ ∀ n ∈ l, n ≤ l.foldl Nat.max a := by
  induction l with
  | nil =>
    intro a
    exact ⟨le_refl a, by intro n hn; cases hn⟩
  | cons x rest ih =>
    intro a
    rw [List.foldl_cons]
    obtain ⟨h1, h2⟩ := ih (Nat.max a x)
    refine ⟨le_trans (Nat.le_max_left a x) h1, ?_⟩
    intro n hn
    rcases List.mem_cons.mp hn with h3 | h3
    · subst h3
      exact le_trans (Nat.le_max_right a n) h1
    · exact h2 n h3

/-- Every identity of a tree is below `maxNid + 1`. -/
theorem maxNid_bound (t : DomNode) : ∀ n ∈ nidsOf t, n < maxNid t + 1 := by
  intro n hn
  have h := (foldl_max_le (nidsOf t) 0).2 n hn
  unfold maxNid
  omega

/-- Subtree lookup in a one-tree forest. -/
theorem getSubtreeF_singleton (t : DomNode) (p : Nat) :
    getSubtreeF [t] p = getSubtree t p := by
  cases h : getSubtree t p <;> simp [getSubtreeF, getSubtreeL, h]

/-- The operation loop preserves the protection invariant and every
protected subtree. -/
theorem runOps_protect (protIds safeRoots : List Nat) (maxOps : Int) :
    ∀ (ops : List Op) (st : EngineState), ∀ (st' : EngineState),
      runOps protIds safeRoots maxOps ops st = .ok st' →
      ((nidsOfL st.forest).Nodup ∧ (∀ n ∈ nidsOfL st.forest, n < st.nextId)
        ∧ (∀ p ∈ protIds, p ∈ nidsOfL st.forest)
        ∧ (∀ e ∈ st.events, inProtected st.forest protIds e.1 = false)
        ∧ st.applied.length = st.events.length ∧ st.changed = st.events.length) →
      (((nidsOfL st'.forest).Nodup
        ∧ (∀ n ∈ nidsOfL st'.forest, n < st'.nextId)
        ∧ (∀ p ∈ protIds, p ∈ nidsOfL st'.forest)
        ∧ (∀ e ∈ st'.events, inProtected st'.forest protIds e.1 = false)
        ∧ st'.applied.length = st'.events.length ∧ st'.changed = st'.events.length)
        ∧ ∀ p ∈ protIds, getSubtreeF st'.forest p = getSubtreeF st.forest p) := by
  intro ops st
  induction ops, st using runOps.induct protIds safeRoots maxOps
  all_goals intro st' h
  all_goals simp only [runOps, *, String.reduceEq, reduceIte, Bool.false_eq_true,
    if_true, if_false] at h
  all_goals try (simp only [*] at *)
  all_goals intro hI
  all_goals try (cases h; exact ⟨hI, fun p hp => rfl⟩)
  all_goals try (cases h)
  all_goals try (rename_i ih; exact ih st' rfl hI)
  case case5 =>
    rename_i st2 hx ih
    obtain ⟨hI2, hstab2⟩ := runCandidates_protect protIds safeRoots maxOps _ _ _ st2 hx hI
    obtain ⟨hI3, hstab3⟩ := ih st' rfl hI2
    exact ⟨hI3, fun p hp => (hstab3 p hp).trans (hstab2 p hp)⟩



/-- **C1** (amended): on a well-formed document, `applyOps` never mutates
a node matched by a protected selector nor any node inside one: every
protected node's subtree is preserved verbatim among the live nodes, every
counted mutation event happens at an element outside every protected
subtree, and the applied log has exactly one entry per such event.
(Protected nodes can still be *detached from the document* by rewriting the
content of an unprotected ancestor — see the counterexample.) -/
theorem applyOps_mutates_only_unprotected_nodes (req : PatchRequest) (st' : EngineState)
    (hwf : WFDoc req.doc)
    (h : applyOpsFull req = .ok st') :
    (∀ p ∈ protectedNodeIds req.doc req.protectedSelectors,
        getSubtreeF st'.forest p = getSubtree req.doc p)
    ∧ (∀ e ∈ st'.events,
        inProtected st'.forest (protectedNodeIds req.doc req.protectedSelectors) e.1 = false)
    ∧ st'.applied.length = st'.events.length
    ∧ st'.changed = st'.events.length := by
  unfold applyOpsFull at h
  cases hr : resolveRoots req.doc req.root with
  | error e => rw [hr] at h; cases h
  | ok roots =>
    simp only [hr] at h
    have h0 : (nidsOfL [req.doc]).Nodup
        ∧ (∀ n ∈ nidsOfL [req.doc], n < maxNid req.doc + 1)
        ∧ (∀ p ∈ protectedNodeIds req.doc req.protectedSelectors, p ∈ nidsOfL [req.doc])
        ∧ (∀ e ∈ ([] : List (Nat × String)),
            inProtected [req.doc] (protectedNodeIds req.doc req.protectedSelectors) e.1 = false)
        ∧ ([] : List Applied).length = ([] : List (Nat × String)).length
        ∧ 0 = ([] : List (Nat × String)).length := by
      refine ⟨?_, ?_, ?_, ?_, rfl, rfl⟩
      · simpa [nidsOfL] using hwf
      · intro n hn
        simp only [nidsOfL, List.append_nil] at hn
        exact maxNid_bound req.doc n hn
      · intro p hp
        simp only [nidsOfL, List.append_nil]
        exact protectedNodeIds_mem req.doc _ p hp
      · intro e he
        cases he
    obtain ⟨hI, hstab⟩ := runOps_protect _ _ _ _ _ st' h h0
    refine ⟨?_, hI.2.2.2.1, hI.2.2.2.2.1, hI.2.2.2.2.2⟩
    intro p hp
    rw [hstab p hp]
    exact getSubtreeF_singleton req.doc p

/-- **C1** (counterexample): `replace_text` on the unprotected `div#x`
destroys its default-protected `script` descendant (identity 4, the sole
protected node): the patch succeeds with one counted change and one
applied entry, and node 4 is gone from the resulting document. -/
theorem replace_text_ancestor_destroys_protected :
    protectedNodeIds exDocScript [] = [4]
    ∧ (applyOps exReqDestroyScript).map
        (fun r => (r.changed, r.applied.length, hasNid r.doc 4)) = .ok (1, 1, false) := by
  exact ⟨by decide, by rfl⟩

/-- Witness for **C1**: the amended theorem applied to the counterexample
request itself — the detached `script` subtree is still preserved verbatim
among the live nodes, and the one applied entry arose at the unprotected
`div`. -/
theorem applyOps_mutates_only_unprotected_nodes_witness :
    WFDoc exDocScript
    ∧ ∃ st' : EngineState, applyOpsFull exReqDestroyScript = .ok st'
      ∧ ((∀ p ∈ protectedNodeIds exDocScript [], getSubtreeF st'.forest p = getSubtree exDocScript p)
        ∧ (∀ e ∈ st'.events, inProtected st'.forest (protectedNodeIds exDocScript []) e.1 = false)
        ∧ st'.applied.length = st'.events.length
        ∧ st'.changed = st'.events.length) := by
  refine ⟨by unfold WFDoc; decide, ⟨_, rfl, ?_⟩⟩
  exact applyOps_mutates_only_unprotected_nodes exReqDestroyScript _ (by unfold WFDoc; decide) rfl

/-- **C4** (counterexample): `upsertCssRule` is not idempotent — starting
from an empty css text, the second application with the same
(selector, rules) pair changes the text again. -/
theorem upsertCssRule_twice_differs_from_once :
    upsertCssRule (upsertCssRule "" "a" "color: red") "a" "color: red"
      ≠ upsertCssRule "" "a" "color: red" := by
  decide

/-- **C4** (amended): `upsertCssRule` is not idempotent, and repeated
application need not converge at all.  With the selector absent the first
application appends `"\n" ++ sel ++ " \x7b " ++ rules ++ " \x7d"`; the
second finds that block and rewrites the captured prefix to a single
space, so twice differs from once.  And when the rules text itself
contains `\x7d`, the lazily matched body stops at the first `\x7d` and the
re-serialized block re-introduces it, so each of the first three
applications appends another ` \x7d` — the text keeps growing instead of
stabilizing. -/
theorem upsertCssRule_rewrites_then_may_grow :
    upsertCssRule "" "a" "color: red" = "\na \x7b color: red \x7d"
    ∧ upsertCssRule (upsertCssRule "" "a" "color: red") "a" "color: red"
        = " a \x7b color: red \x7d"
    ∧ upsertCssRule "" "a" "x: \x7d" = "\na \x7b x: \x7d \x7d"
    ∧ upsertCssRule (upsertCssRule "" "a" "x: \x7d") "a" "x: \x7d"
        = " a \x7b x: \x7d \x7d \x7d"
    ∧ upsertCssRule (upsertCssRule (upsertCssRule "" "a" "x: \x7d") "a" "x: \x7d") "a" "x: \x7d"
        = " a \x7b x: \x7d \x7d \x7d \x7d" := by
  refine ⟨by decide, by decide, by decide, by decide, by decide⟩

end AutomateUX
